import Mathlib

/-!
Verification of the SLURM Cluster Manager core against its specification.

The embedding works over explicit character lists (`List Char`); JavaScript
strings are modelled as their character sequences, JavaScript numbers holding
integral values as `Nat`/`Int` with exact arithmetic, and the few places the
source touches the outside world (operating-system user lookup, filesystem,
wall-clock `Date.now()`, `Date` parsing of timestamps) are explicit parameters
of the embedded functions.
-/

namespace SlurmSpec

/-- Character sequence of a JavaScript string. -/
abbrev Str := List Char

/-- Digit characters interpreted as a base-10 natural number, most significant
digit first (the value of a digit run as read by parseInt). -/
def natOfDigits (ds : Str) : Nat :=
  ds.foldl (fun n c => 10 * n + (c.toNat - 48)) 0

/-- Prepends a character to the first segment of a split result. -/
def consHead (c : Char) : List Str → List Str
  | [] => [[c]]
  | s :: ss => (c :: s) :: ss

/-- Splits a character list at every occurrence of the separator, like the
JavaScript split method with a one-character separator: separators are dropped
and empty segments are kept, so the result is always nonempty. -/
def splitOnChar (sep : Char) : Str → List Str
  | [] => [[]]
  | c :: rest =>
    if c = sep then
      [] :: splitOnChar sep rest
    else
      consHead c (splitOnChar sep rest)

/-- Leading-integer parsing composed with the JavaScript or-zero idiom:
parseInt(t, 10) skips leading whitespace, reads an optional sign and a maximal
digit run, and the trailing or-zero turns a failed parse (NaN) into 0. -/
def parseIntTail : Str → Int
  | [] => 0
  | c :: r =>
    if c = '-' then
      let ds := r.takeWhile Char.isDigit
      if ds = [] then 0 else -(natOfDigits ds : Int)
    else if c = '+' then
      let ds := r.takeWhile Char.isDigit
      if ds = [] then 0 else (natOfDigits ds : Int)
    else
      let ds := (c :: r).takeWhile Char.isDigit
      if ds = [] then 0 else (natOfDigits ds : Int)

def jsParseIntOr0 (t : Str) : Int :=
  parseIntTail (t.dropWhile Char.isWhitespace)

/-- Distributes the parsed colon-separated fields over hours, minutes and
seconds, as in the length cases of parseTimeToSeconds. -/
def hmsOf : List Int → Int × Int × Int
  | [h, m, s] => (h, m, s)
  | [m, s] => (0, m, s)
  | [s] => (0, 0, s)
  | _ => (0, 0, 0)

/-- Embeds parseTimeToSeconds from slurmService.ts: sentinel -1 for empty,
N/A, UNLIMITED and INVALID inputs; an optional day prefix before a dash; then
colon-separated fields read as H:M:S, M:S or bare seconds, each field parsed
with the or-zero idiom. The JavaScript destructuring of split takes the first
two segments only, mirrored here with positional access. -/
def parseTimeToSeconds (timeStr : Str) : Int :=
  if timeStr = [] ∨ timeStr = "N/A".data ∨ timeStr = "UNLIMITED".data ∨
      timeStr = "INVALID".data then
    -1
  else
    let dayAndRest : Int × Str :=
      if '-' ∈ timeStr then
        let segs := splitOnChar '-' timeStr
        (jsParseIntOr0 (segs.headD []), segs.getD 1 [])
      else
        (0, timeStr)
    let hms := hmsOf ((splitOnChar ':' dayAndRest.2).map jsParseIntOr0)
    dayAndRest.1 * 86400 + hms.1 * 3600 + hms.2.1 * 60 + hms.2.2

/-- Embeds calculateProgress from slurmService.ts. Math.round on the
nonnegative quotient (elapsed / limit) * 100 is the floor of the quotient plus
one half, written here in exact natural arithmetic as (200e + l) / (2l). -/
def calculateProgress (elapsed limit : Str) : Int :=
  let elapsedSec := parseTimeToSeconds elapsed
  let limitSec := parseTimeToSeconds limit
  if elapsedSec < 0 ∨ limitSec ≤ 0 then
    -1
  else
    (min 100 ((200 * elapsedSec.toNat + limitSec.toNat) / (2 * limitSec.toNat)) : Nat)

/-! Helper lemmas about digit characters and the splitting and parsing
primitives, used to settle the time-arithmetic claims. -/

/-- The ten decimal digit characters. -/
def digitChars : Str := ['0', '1', '2', '3', '4', '5', '6', '7', '8', '9']

/-- A nonempty run of decimal digit characters. -/
abbrev DigitStr (t : Str) : Prop := t ≠ [] ∧ ∀ c ∈ t, c ∈ digitChars

theorem isDigit_of_mem_digitChars (c : Char) (h : c ∈ digitChars) : c.isDigit = true := by
  simp only [digitChars, List.mem_cons, List.not_mem_nil, or_false] at h
  rcases h with rfl | rfl | rfl | rfl | rfl | rfl | rfl | rfl | rfl | rfl <;> decide

theorem not_isWhitespace_of_mem_digitChars (c : Char) (h : c ∈ digitChars) :
    c.isWhitespace = false := by
  simp only [digitChars, List.mem_cons, List.not_mem_nil, or_false] at h
  rcases h with rfl | rfl | rfl | rfl | rfl | rfl | rfl | rfl | rfl | rfl <;> decide

theorem ne_specials_of_mem_digitChars (c : Char) (h : c ∈ digitChars) :
    c ≠ '-' ∧ c ≠ '+' ∧ c ≠ ':' ∧ c ≠ 'N' ∧ c ≠ 'U' ∧ c ≠ 'I' := by
  simp only [digitChars, List.mem_cons, List.not_mem_nil, or_false] at h
  rcases h with rfl | rfl | rfl | rfl | rfl | rfl | rfl | rfl | rfl | rfl <;> decide

theorem dash_not_mem_of_digitStr (t : Str) (h : DigitStr t) : '-' ∉ t :=
  fun hm => (ne_specials_of_mem_digitChars '-' (h.2 '-' hm)).1 rfl

theorem colon_not_mem_of_digitStr (t : Str) (h : DigitStr t) : ':' ∉ t :=
  fun hm => (ne_specials_of_mem_digitChars ':' (h.2 ':' hm)).2.2.1 rfl

theorem consHead_cons (c : Char) (s : Str) (ss : List Str) :
    consHead c (s :: ss) = (c :: s) :: ss := rfl

theorem splitOnChar_nil (sep : Char) : splitOnChar sep [] = [[]] := rfl

theorem splitOnChar_cons_self (sep : Char) (rest : Str) :
    splitOnChar sep (sep :: rest) = [] :: splitOnChar sep rest := by
  simp [splitOnChar]

theorem splitOnChar_cons_ne (sep c : Char) (rest : Str) (h : ¬(c = sep)) :
    splitOnChar sep (c :: rest) = consHead c (splitOnChar sep rest) := by
  simp [splitOnChar, if_neg h]

theorem splitOnChar_ne_nil (sep : Char) (s : Str) : splitOnChar sep s ≠ [] := by
  induction s with
  | nil => simp [splitOnChar]
  | cons c rest ih =>
    by_cases h : c = sep
    · subst h
      rw [splitOnChar_cons_self]
      simp
    · rw [splitOnChar_cons_ne sep c rest h]
      cases hsp : splitOnChar sep rest with
      | nil => simp [consHead]
      | cons a as => simp [consHead]

theorem splitOnChar_of_not_mem (sep : Char) (s : Str) (h : sep ∉ s) :
    splitOnChar sep s = [s] := by
  induction s with
  | nil => rfl
  | cons c rest ih =>
    have hc : ¬(c = sep) := by rintro rfl; exact h (by simp)
    have hr : sep ∉ rest := fun hm => h (by simp [hm])
    rw [splitOnChar_cons_ne sep c rest hc, ih hr, consHead_cons]

theorem splitOnChar_append (sep : Char) (a b : Str) (h : sep ∉ a) :
    splitOnChar sep (a ++ sep :: b) = a :: splitOnChar sep b := by
  induction a with
  | nil =>
    rw [List.nil_append, splitOnChar_cons_self]
  | cons c arest ih =>
    have hc : ¬(c = sep) := by rintro rfl; exact h (by simp)
    have ha : sep ∉ arest := fun hm => h (by simp [hm])
    rw [List.cons_append, splitOnChar_cons_ne sep c _ hc, ih ha, consHead_cons]

theorem mem_of_mem_splitOnChar (sep : Char) (s seg : Str) (hseg : seg ∈ splitOnChar sep s) :
    ∀ c ∈ seg, c ∈ s := by
  induction s generalizing seg with
  | nil =>
    rw [splitOnChar_nil, List.mem_singleton] at hseg
    subst hseg
    simp
  | cons x rest ih =>
    by_cases hx : x = sep
    · subst hx
      rw [splitOnChar_cons_self, List.mem_cons] at hseg
      rcases hseg with rfl | hseg
      · simp
      · exact fun c hc => List.mem_cons_of_mem _ (ih seg hseg c hc)
    · rw [splitOnChar_cons_ne sep x rest hx] at hseg
      cases hsp : splitOnChar sep rest with
      | nil => exact absurd hsp (splitOnChar_ne_nil sep rest)
      | cons a as =>
        rw [hsp, consHead_cons, List.mem_cons] at hseg
        rcases hseg with rfl | hseg
        · intro c hc
          rcases List.mem_cons.mp hc with rfl | hc
          · simp
          · exact List.mem_cons_of_mem _ (ih a (hsp ▸ List.mem_cons_self a as) c hc)
        · exact fun c hc =>
            List.mem_cons_of_mem _ (ih seg (hsp ▸ List.mem_cons_of_mem a hseg) c hc)

theorem not_mem_of_mem_splitOnChar (sep : Char) (s seg : Str)
    (hseg : seg ∈ splitOnChar sep s) : sep ∉ seg := by
  induction s generalizing seg with
  | nil =>
    rw [splitOnChar_nil, List.mem_singleton] at hseg
    subst hseg
    simp
  | cons x rest ih =>
    by_cases hx : x = sep
    · subst hx
      rw [splitOnChar_cons_self, List.mem_cons] at hseg
      rcases hseg with rfl | hseg
      · simp
      · exact ih seg hseg
    · rw [splitOnChar_cons_ne sep x rest hx] at hseg
      cases hsp : splitOnChar sep rest with
      | nil => exact absurd hsp (splitOnChar_ne_nil sep rest)
      | cons a as =>
        rw [hsp, consHead_cons, List.mem_cons] at hseg
        rcases hseg with rfl | hseg
        · intro hm
          rcases List.mem_cons.mp hm with rfl | hm
          · exact hx rfl
          · exact ih a (hsp ▸ List.mem_cons_self a as) hm
        · exact ih seg (hsp ▸ List.mem_cons_of_mem a hseg)

theorem jsParseIntOr0_digitStr (t : Str) (h : DigitStr t) :
    jsParseIntOr0 t = (natOfDigits t : Int) := by
  obtain ⟨hne, hd⟩ := h
  obtain ⟨c, r, rfl⟩ := List.exists_cons_of_ne_nil hne
  have hc : c ∈ digitChars := hd c (by simp)
  have hws : c.isWhitespace = false := not_isWhitespace_of_mem_digitChars c hc
  have hdig : ∀ x ∈ c :: r, Char.isDigit x = true :=
    fun x hx => isDigit_of_mem_digitChars x (hd x hx)
  have hspec := ne_specials_of_mem_digitChars c hc
  unfold jsParseIntOr0
  rw [List.dropWhile_cons, if_neg (by simp [hws])]
  simp only [parseIntTail, if_neg hspec.1, if_neg hspec.2.1,
    List.takeWhile_eq_self_iff.mpr hdig]
  simp

theorem jsParseIntOr0_nonneg (t : Str) (h : '-' ∉ t) : 0 ≤ jsParseIntOr0 t := by
  unfold jsParseIntOr0
  have hsub : '-' ∉ t.dropWhile Char.isWhitespace :=
    fun hm => h (List.Sublist.mem hm (List.dropWhile_sublist Char.isWhitespace))
  cases hdr : t.dropWhile Char.isWhitespace with
  | nil => simp [parseIntTail]
  | cons c r =>
    have hc : ¬(c = '-') := by rintro rfl; exact hsub (hdr ▸ List.mem_cons_self _ _)
    simp only [parseIntTail, if_neg hc]
    split <;> split <;> positivity

theorem nonneg_of_mem_parts (tp : Str) (h : '-' ∉ tp) :
    ∀ x ∈ (splitOnChar ':' tp).map jsParseIntOr0, 0 ≤ x := by
  intro x hx
  obtain ⟨seg, hseg, rfl⟩ := List.mem_map.mp hx
  exact jsParseIntOr0_nonneg seg
    (fun hm => h (mem_of_mem_splitOnChar ':' tp seg hseg '-' hm))

/-! Format lemmas for parseTimeToSeconds, and the rounding bridge between the
integer arithmetic of the embedding and the rational rounding of the claims. -/

theorem digitStr_cons (t : Str) (h : DigitStr t) : ∃ c r, t = c :: r ∧ c ∈ digitChars :=
  match t, h with
  | c :: r, ⟨_, hall⟩ => ⟨c, r, rfl, hall c (by simp)⟩

theorem digitStr_ne_sentinels (t rest : Str) (h : DigitStr t) :
    ¬(t ++ rest = [] ∨ t ++ rest = "N/A".data ∨ t ++ rest = "UNLIMITED".data ∨
      t ++ rest = "INVALID".data) := by
  obtain ⟨c, r, rfl, hc⟩ := digitStr_cons t h
  have hne := ne_specials_of_mem_digitChars c hc
  rintro (habs | habs | habs | habs) <;>
    simp only [List.cons_append, show "N/A".data = 'N' :: "/A".data from rfl,
      show "UNLIMITED".data = 'U' :: "NLIMITED".data from rfl,
      show "INVALID".data = 'I' :: "NVALID".data from rfl,
      List.cons.injEq] at habs
  · exact List.cons_ne_nil _ _ habs
  · exact hne.2.2.2.1 habs.1
  · exact hne.2.2.2.2.1 habs.1
  · exact hne.2.2.2.2.2 habs.1

theorem map_parse_singleton (s : Str) (hs : DigitStr s) :
    (splitOnChar ':' s).map jsParseIntOr0 = [(natOfDigits s : Int)] := by
  rw [splitOnChar_of_not_mem ':' s (colon_not_mem_of_digitStr s hs)]
  simp [jsParseIntOr0_digitStr s hs]

theorem map_parse_two (m s : Str) (hm : DigitStr m) (hs : DigitStr s) :
    (splitOnChar ':' (m ++ ':' :: s)).map jsParseIntOr0 =
      [(natOfDigits m : Int), (natOfDigits s : Int)] := by
  rw [splitOnChar_append ':' m s (colon_not_mem_of_digitStr m hm),
    splitOnChar_of_not_mem ':' s (colon_not_mem_of_digitStr s hs)]
  simp [jsParseIntOr0_digitStr m hm, jsParseIntOr0_digitStr s hs]

theorem map_parse_three (h m s : Str) (hh : DigitStr h) (hm : DigitStr m) (hs : DigitStr s) :
    (splitOnChar ':' (h ++ ':' :: (m ++ ':' :: s))).map jsParseIntOr0 =
      [(natOfDigits h : Int), (natOfDigits m : Int), (natOfDigits s : Int)] := by
  rw [splitOnChar_append ':' h _ (colon_not_mem_of_digitStr h hh),
    splitOnChar_append ':' m s (colon_not_mem_of_digitStr m hm),
    splitOnChar_of_not_mem ':' s (colon_not_mem_of_digitStr s hs)]
  simp [jsParseIntOr0_digitStr h hh, jsParseIntOr0_digitStr m hm, jsParseIntOr0_digitStr s hs]

theorem dash_not_mem_hms (h m s : Str) (hh : DigitStr h) (hm : DigitStr m) (hs : DigitStr s) :
    '-' ∉ (h ++ ':' :: (m ++ ':' :: s)) := by
  simp only [List.mem_append, List.mem_cons]
  rintro (hc | hc | hc | hc | hc)
  · exact dash_not_mem_of_digitStr h hh hc
  · exact absurd hc (by decide)
  · exact dash_not_mem_of_digitStr m hm hc
  · exact absurd hc (by decide)
  · exact dash_not_mem_of_digitStr s hs hc

theorem parseTimeToSeconds_hms (h m s : Str) (hh : DigitStr h) (hm : DigitStr m)
    (hs : DigitStr s) :
    parseTimeToSeconds (h ++ ':' :: (m ++ ':' :: s)) =
      3600 * natOfDigits h + 60 * natOfDigits m + natOfDigits s := by
  unfold parseTimeToSeconds
  rw [if_neg (digitStr_ne_sentinels h _ hh), if_neg (dash_not_mem_hms h m s hh hm hs)]
  simp only [map_parse_three h m s hh hm hs, hmsOf]
  push_cast
  ring

theorem parseTimeToSeconds_ms (m s : Str) (hm : DigitStr m) (hs : DigitStr s) :
    parseTimeToSeconds (m ++ ':' :: s) = 60 * natOfDigits m + natOfDigits s := by
  have hdash : '-' ∉ (m ++ ':' :: s) := by
    simp only [List.mem_append, List.mem_cons]
    rintro (hc | hc | hc)
    · exact dash_not_mem_of_digitStr m hm hc
    · exact absurd hc (by decide)
    · exact dash_not_mem_of_digitStr s hs hc
  unfold parseTimeToSeconds
  rw [if_neg (digitStr_ne_sentinels m _ hm), if_neg hdash]
  simp only [map_parse_two m s hm hs, hmsOf]
  push_cast
  ring

theorem parseTimeToSeconds_bare (s : Str) (hs : DigitStr s) :
    parseTimeToSeconds s = natOfDigits s := by
  have hdash : '-' ∉ s := dash_not_mem_of_digitStr s hs
  have hsent := digitStr_ne_sentinels s [] hs
  rw [List.append_nil] at hsent
  unfold parseTimeToSeconds
  rw [if_neg hsent, if_neg hdash]
  simp only [map_parse_singleton s hs, hmsOf]
  ring

theorem parseTimeToSeconds_dhms (d h m s : Str) (hd : DigitStr d) (hh : DigitStr h)
    (hm : DigitStr m) (hs : DigitStr s) :
    parseTimeToSeconds (d ++ '-' :: (h ++ ':' :: (m ++ ':' :: s))) =
      86400 * natOfDigits d + 3600 * natOfDigits h + 60 * natOfDigits m + natOfDigits s := by
  have hrest : '-' ∉ (h ++ ':' :: (m ++ ':' :: s)) := dash_not_mem_hms h m s hh hm hs
  have hmem : '-' ∈ (d ++ '-' :: (h ++ ':' :: (m ++ ':' :: s))) := by simp
  unfold parseTimeToSeconds
  rw [if_neg (digitStr_ne_sentinels d _ hd), if_pos hmem]
  simp only [splitOnChar_append '-' d _ (dash_not_mem_of_digitStr d hd),
    splitOnChar_of_not_mem '-' _ hrest, List.headD_cons, List.getD_cons_zero,
    List.getD_cons_succ, jsParseIntOr0_digitStr d hd, map_parse_three h m s hh hm hs, hmsOf]
  ring

theorem hmsOf_nonneg (parts : List Int) (hp : ∀ x ∈ parts, 0 ≤ x) :
    0 ≤ (hmsOf parts).1 ∧ 0 ≤ (hmsOf parts).2.1 ∧ 0 ≤ (hmsOf parts).2.2 := by
  match parts with
  | [] => simp [hmsOf]
  | [a] =>
    exact ⟨by simp [hmsOf], by simp [hmsOf], by simpa [hmsOf] using hp a (by simp)⟩
  | [a, b] =>
    exact ⟨by simp [hmsOf], by simpa [hmsOf] using hp a (by simp),
      by simpa [hmsOf] using hp b (by simp)⟩
  | [a, b, c] =>
    exact ⟨by simpa [hmsOf] using hp a (by simp), by simpa [hmsOf] using hp b (by simp),
      by simpa [hmsOf] using hp c (by simp)⟩
  | a :: b :: c :: d :: rest => simp [hmsOf]

theorem parseTimeToSeconds_eq_neg_one_or_nonneg (t : Str) :
    parseTimeToSeconds t = -1 ∨ 0 ≤ parseTimeToSeconds t := by
  unfold parseTimeToSeconds
  split
  · exact Or.inl rfl
  · right
    set dayAndRest : Int × Str :=
      (if '-' ∈ t then
        (jsParseIntOr0 ((splitOnChar '-' t).headD []), (splitOnChar '-' t).getD 1 [])
      else ((0 : Int), t)) with hdr
    have hday : 0 ≤ dayAndRest.1 := by
      rw [hdr]
      split
      · cases hsp : splitOnChar '-' t with
        | nil => exact absurd hsp (splitOnChar_ne_nil '-' t)
        | cons a as =>
          simp only [hsp, List.headD_cons]
          exact jsParseIntOr0_nonneg a
            (not_mem_of_mem_splitOnChar '-' t a (hsp ▸ List.mem_cons_self a as))
      · simp
    have htpd : '-' ∉ dayAndRest.2 := by
      rw [hdr]
      split
      · rw [List.getD_eq_getElem?_getD]
        cases hg : (splitOnChar '-' t)[1]? with
        | none => simp
        | some x =>
          simp only [Option.getD_some]
          obtain ⟨hlt, rfl⟩ := List.getElem?_eq_some.mp hg
          exact not_mem_of_mem_splitOnChar '-' t _ (List.getElem_mem hlt)
      · rename_i hmem
        exact hmem
    obtain ⟨h1, h2, h3⟩ :=
      hmsOf_nonneg ((splitOnChar ':' dayAndRest.2).map jsParseIntOr0)
        (nonneg_of_mem_parts dayAndRest.2 htpd)
    dsimp only
    omega

theorem natRoundDiv (a b : ℕ) (hb : 0 < b) :
    (((2 * a + b) / (2 * b) : ℕ) : ℤ) = round ((a : ℚ) / (b : ℚ)) := by
  have hbq : ((b : ℚ)) ≠ 0 := Nat.cast_ne_zero.mpr hb.ne'
  rw [round_eq]
  have hx : (a : ℚ) / (b : ℚ) + 1 / 2 = ((2 * a + b : ℕ) : ℚ) / ((2 * b : ℕ) : ℚ) := by
    push_cast
    field_simp
    ring
  rw [hx, Rat.floor_natCast_div_natCast]
  push_cast [Int.natCast_div]
  rfl

/-! Claim theorems for the Time and Progress Calculator. -/

/-- C6 counterexample: the claim gives 90000 seconds for the duration string
1-00:30:00, but one day plus thirty minutes is 88200 seconds, which is what
parseTimeToSeconds computes. -/
theorem parseTimeToSeconds_example_counterexample :
    parseTimeToSeconds "1-00:30:00".data = 88200 ∧
    parseTimeToSeconds "1-00:30:00".data ≠ 90000 := by
  decide

/-- C6 (amended): for duration strings in the formats D-HH:MM:SS, HH:MM:SS,
MM:SS and bare seconds, built from arbitrary nonempty digit runs,
parseTimeToSeconds returns the exact total second count; the empty string,
N/A, UNLIMITED and INVALID yield the unknown sentinel -1; a sub-token that
fails to parse defaults to zero rather than failing; and 1-00:30:00 parses to
88200 seconds (one day plus thirty minutes), not 90000 as the claim stated. -/
theorem parseTimeToSeconds_spec (d h m s : Str) (hd : DigitStr d) (hh : DigitStr h)
    (hm : DigitStr m) (hs : DigitStr s) :
    parseTimeToSeconds (d ++ '-' :: (h ++ ':' :: (m ++ ':' :: s)))
      = 86400 * natOfDigits d + 3600 * natOfDigits h + 60 * natOfDigits m + natOfDigits s
  ∧ parseTimeToSeconds (h ++ ':' :: (m ++ ':' :: s))
      = 3600 * natOfDigits h + 60 * natOfDigits m + natOfDigits s
  ∧ parseTimeToSeconds (m ++ ':' :: s) = 60 * natOfDigits m + natOfDigits s
  ∧ parseTimeToSeconds s = natOfDigits s
  ∧ parseTimeToSeconds [] = -1
  ∧ parseTimeToSeconds "N/A".data = -1
  ∧ parseTimeToSeconds "UNLIMITED".data = -1
  ∧ parseTimeToSeconds "INVALID".data = -1
  ∧ parseTimeToSeconds "1-00:30:00".data = 88200
  ∧ parseTimeToSeconds "00:30:00".data = 1800
  ∧ parseTimeToSeconds "30:00".data = 1800
  ∧ parseTimeToSeconds "45".data = 45
  ∧ parseTimeToSeconds "1-xx:30:00".data = 88200 := by
  refine ⟨parseTimeToSeconds_dhms d h m s hd hh hm hs,
    parseTimeToSeconds_hms h m s hh hm hs, parseTimeToSeconds_ms m s hm hs,
    parseTimeToSeconds_bare s hs, by decide, by decide, by decide, by decide,
    by decide, by decide, by decide, by decide, by decide⟩

theorem parseTimeToSeconds_spec_witness :
    DigitStr "1".data ∧
    parseTimeToSeconds ("1".data ++ '-' :: ("2".data ++ ':' :: ("3".data ++ ':' :: "4".data)))
      = 86400 * natOfDigits "1".data + 3600 * natOfDigits "2".data +
        60 * natOfDigits "3".data + natOfDigits "4".data :=
  ⟨by decide,
    (parseTimeToSeconds_spec "1".data "2".data "3".data "4".data
      (by decide) (by decide) (by decide) (by decide)).1⟩

/-- C5: calculateProgress returns the unknown sentinel -1 exactly when the
elapsed input parses as unknown or the limit parses as at most 0 seconds;
otherwise it returns the rational rounding of 100 times elapsed over limit,
clamped to at most 100; with the concrete behaviors from the specification. -/
theorem calculateProgress_spec (elapsed limit : Str) :
    (parseTimeToSeconds elapsed = -1 ∨ parseTimeToSeconds limit ≤ 0 →
      calculateProgress elapsed limit = -1)
  ∧ (parseTimeToSeconds elapsed ≠ -1 → 0 < parseTimeToSeconds limit →
      calculateProgress elapsed limit
        = min 100 (round ((100 * parseTimeToSeconds elapsed : ℚ) /
            (parseTimeToSeconds limit : ℚ)))
      ∧ calculateProgress elapsed limit ≤ 100)
  ∧ calculateProgress "00:30:00".data "01:00:00".data = 50
  ∧ calculateProgress "02:00:00".data "01:00:00".data = 100
  ∧ calculateProgress elapsed "UNLIMITED".data = -1 := by
  refine ⟨?_, ?_, by decide, by decide, ?_⟩
  · intro hcond
    unfold calculateProgress
    rw [if_pos]
    rcases hcond with he | hl
    · exact Or.inl (by omega)
    · exact Or.inr hl
  · intro he hl
    have he0 : 0 ≤ parseTimeToSeconds elapsed := by
      rcases parseTimeToSeconds_eq_neg_one_or_nonneg elapsed with h | h
      · exact absurd h he
      · exact h
    unfold calculateProgress
    rw [if_neg (by omega)]
    set e := parseTimeToSeconds elapsed with hedef
    set l := parseTimeToSeconds limit with hldef
    have hlnat : 0 < l.toNat := by omega
    have hkey := natRoundDiv (100 * e.toNat) l.toNat hlnat
    have hecast : ((e.toNat : ℕ) : ℚ) = (e : ℚ) := by
      exact_mod_cast Int.toNat_of_nonneg he0
    have hlcast : ((l.toNat : ℕ) : ℚ) = (l : ℚ) := by
      exact_mod_cast Int.toNat_of_nonneg hl.le
    have harg : ((100 * e.toNat : ℕ) : ℚ) / ((l.toNat : ℕ) : ℚ)
        = (100 * e : ℚ) / (l : ℚ) := by
      push_cast [hecast, hlcast]
      ring
    rw [harg] at hkey
    have h2 : 2 * (100 * e.toNat) = 200 * e.toNat := by ring
    rw [h2] at hkey
    constructor
    · rw [← hkey]
      push_cast
      rfl
    · have : min 100 ((200 * e.toNat + l.toNat) / (2 * l.toNat)) ≤ 100 :=
        min_le_left _ _
      exact_mod_cast this
  · unfold calculateProgress
    rw [if_pos]
    exact Or.inr (by decide)

theorem calculateProgress_spec_witness :
    parseTimeToSeconds "00:30:00".data ≠ -1 ∧ 0 < parseTimeToSeconds "01:00:00".data ∧
    (calculateProgress "00:30:00".data "01:00:00".data
        = min 100 (round ((100 * parseTimeToSeconds "00:30:00".data : ℚ) /
            (parseTimeToSeconds "01:00:00".data : ℚ)))
      ∧ calculateProgress "00:30:00".data "01:00:00".data ≤ 100) :=
  ⟨by decide, by decide,
    (calculateProgress_spec "00:30:00".data "01:00:00".data).2.1 (by decide) (by decide)⟩

/-! Path placeholder expansion: replaceAll models the JavaScript global
regex replacement of a literal pattern, scanning left to right, never
rescanning replaced text, and applying the dollar escape expansion that
String.replace performs on a string replacement value. -/

/-- JavaScript dollar escape expansion applied to a string replacement value:
a dollar followed by another dollar inserts a literal dollar, by an ampersand
the matched text, by a backquote the portion of the subject before the match,
by a straight quote the portion after it; any other dollar stays literal (the
patterns used here have no capture groups, so a dollar followed by a digit is
literal as well). -/
def dollarExpand (matched pre post : Str) : Str → Str
  | [] => []
  | [c] => [c]
  | c :: d :: t =>
    if c = '$' then
      if d = '$' then '$' :: dollarExpand matched pre post t
      else if d = '&' then matched ++ dollarExpand matched pre post t
      else if d = Char.ofNat 96 then pre ++ dollarExpand matched pre post t
      else if d = Char.ofNat 39 then post ++ dollarExpand matched pre post t
      else c :: dollarExpand matched pre post (d :: t)
    else c :: dollarExpand matched pre post (d :: t)

/-- The replacement scan of String.replace with a global literal pattern:
matches are found left to right, replaced text is not rescanned, and every
replacement value undergoes dollar escape expansion against the subject. The
pattern is split into its first character and tail so that it is always
nonempty; pre is the already scanned prefix of the subject and the fuel
argument (an upper bound on the scanned length) keeps the recursion
structural. -/
def jsReplaceFuel (p0 : Char) (ps rep : Str) : Nat → Str → Str → Str
  | 0, _, s => s
  | _ + 1, _, [] => []
  | fuel + 1, pre, c :: rest =>
    if (p0 :: ps).isPrefixOf (c :: rest) then
      dollarExpand (p0 :: ps) pre (rest.drop ps.length) rep
        ++ jsReplaceFuel p0 ps rep fuel (pre ++ p0 :: ps) (rest.drop ps.length)
    else
      c :: jsReplaceFuel p0 ps rep fuel (pre ++ [c]) rest

/-- JavaScript s.replace(/pat/g, rep) for the literal pattern p0 :: ps. -/
def replaceAll (p0 : Char) (ps rep s : Str) : Str :=
  jsReplaceFuel p0 ps rep s.length [] s

/-- Whether the literal pattern occurs anywhere in the text. -/
def containsSeq (pat : Str) : Str → Bool
  | [] => pat.isPrefixOf []
  | c :: rest => pat.isPrefixOf (c :: rest) || containsSeq pat rest

/-- Embeds expandPathPlaceholders from slurmService.ts. The operating-system
user lookup is passed as a parameter: some username when the lookup succeeds,
none when it throws, in which case the literal user is substituted. The
substitutions are applied in the source order, each as a global replacement. -/
def expandPathPlaceholders (path jobId jobName nodes : Str) (username : Option Str) : Str :=
  if path = [] ∨ path = "N/A".data then path
  else
    let e1 := replaceAll '%' ['j'] jobId path
    let e2 := replaceAll '%' ['x'] jobName e1
    let e3 := replaceAll '%' ['u'] (username.getD "user".data) e2
    let e4 :=
      if nodes ≠ [] ∧ nodes ≠ "N/A".data then
        replaceAll '%' ['N'] ((nodes.takeWhile (· != ',')).takeWhile (· != '[')) e3
      else if containsSeq "%N".data e3 then
        replaceAll '%' ['N'] "PENDING_NODE".data e3
      else e3
    let arrayParts := splitOnChar '_' jobId
    let e5 := replaceAll '%' ['A'] (arrayParts.headD []) e4
    let e6 := replaceAll '%' ['a']
      (if arrayParts.length > 1 then arrayParts.getD 1 [] else ['0']) e5
    let e7 := replaceAll '%' ['t'] ['0'] e6
    replaceAll '%' ['%'] ['%'] e7

/-- Claim-side: the decomposition of a text at every occurrence of the
literal pattern p0 :: ps, leftmost first, non-overlapping, like the
JavaScript split method with a string separator. -/
def splitSeqFuel (p0 : Char) (ps : Str) : Nat → Str → List Str
  | 0, s => [s]
  | _ + 1, [] => [[]]
  | fuel + 1, c :: rest =>
    if (p0 :: ps).isPrefixOf (c :: rest) then
      [] :: splitSeqFuel p0 ps fuel (rest.drop ps.length)
    else
      consHead c (splitSeqFuel p0 ps fuel rest)

/-- The decomposition at pattern occurrences, with the fuel instantiated. -/
def splitSeq (p0 : Char) (ps s : Str) : List Str :=
  splitSeqFuel p0 ps s.length s

/-- Joins segments with a separator, the inverse reading of splitSeq. -/
def joinSep (sep : Str) : List Str → Str
  | [] => []
  | [x] => x
  | x :: y :: ys => x ++ sep ++ joinSep sep (y :: ys)

/-- Claim-side: every occurrence of the pattern replaced with the value as
literal text: the text is decomposed at all pattern occurrences and rejoined
with the value. -/
def replaceEvery (p0 : Char) (ps rep s : Str) : Str :=
  joinSep rep (splitSeq p0 ps s)

/-- The second separator-delimited segment, or the literal 0 when there are
fewer than two segments. -/
def secondSegD : List Str → Str
  | _ :: seg :: _ => seg
  | _ => ['0']

/-- Claim-side formalization of C2 (amended): in the source order, every
occurrence of each placeholder is replaced with its value as literal text:
%j with the job id, %x with the job name, %u with the user name (the literal
user when the lookup fails), %N with the first hostname token of the node
list stripped of any bracketed range suffix (PENDING_NODE when no node list
is known), %A with the portion of the job id before its first underscore, %a
with the second underscore-separated segment of the job id (0 when there is
no underscore), %t with 0, and %% with a literal percent. -/
def expandClaimFormat (path jobId jobName nodes : Str) (username : Option Str) : Str :=
  let e1 := replaceEvery '%' ['j'] jobId path
  let e2 := replaceEvery '%' ['x'] jobName e1
  let e3 := replaceEvery '%' ['u'] (username.getD "user".data) e2
  let e4 :=
    if nodes ≠ [] ∧ nodes ≠ "N/A".data then
      replaceEvery '%' ['N'] ((nodes.takeWhile (· != ',')).takeWhile (· != '[')) e3
    else
      replaceEvery '%' ['N'] "PENDING_NODE".data e3
  let e5 := replaceEvery '%' ['A'] (jobId.takeWhile (· != '_')) e4
  let e6 := replaceEvery '%' ['a'] (secondSegD (splitOnChar '_' jobId)) e5
  let e7 := replaceEvery '%' ['t'] ['0'] e6
  replaceEvery '%' ['%'] ['%'] e7

theorem isPrefixOf_append_self : ∀ (l t : Str), l.isPrefixOf (l ++ t) = true
  | [], _ => by simp [List.isPrefixOf]
  | a :: r, t => by
    simp only [List.cons_append, List.isPrefixOf_cons₂, beq_self_eq_true, Bool.true_and]
    exact isPrefixOf_append_self r t

theorem isPrefixOf_append_drop : ∀ (l s : Str), l.isPrefixOf s = true →
    l ++ s.drop l.length = s
  | [], s, _ => by simp
  | _ :: _, [], h => Bool.noConfusion h
  | a :: r, b :: t, h => by
    simp only [List.isPrefixOf_cons₂, Bool.and_eq_true, beq_iff_eq] at h
    obtain ⟨rfl, h2⟩ := h
    simp only [List.cons_append, List.length_cons, List.drop_succ_cons]
    exact congrArg (a :: ·) (isPrefixOf_append_drop r t h2)

theorem isPrefixOf_iff (l s : Str) : l.isPrefixOf s = true ↔ l <+: s := by
  constructor
  · intro h
    exact ⟨s.drop l.length, isPrefixOf_append_drop l s h⟩
  · rintro ⟨t, rfl⟩
    exact isPrefixOf_append_self l t

theorem splitSeqFuel_ne_nil (p0 : Char) (ps : Str) :
    ∀ (fuel : Nat) (s : Str), splitSeqFuel p0 ps fuel s ≠ []
  | 0, s => by simp [splitSeqFuel]
  | _ + 1, [] => by simp [splitSeqFuel]
  | fuel + 1, c :: rest => by
    simp only [splitSeqFuel]
    by_cases hp : (p0 :: ps).isPrefixOf (c :: rest) = true
    · rw [if_pos hp]
      simp
    · rw [if_neg hp]
      rcases h : splitSeqFuel p0 ps fuel rest with _ | ⟨q, qs⟩
      · exact absurd h (splitSeqFuel_ne_nil p0 ps fuel rest)
      · simp [consHead]

theorem splitSeqFuel_head (p0 : Char) (ps : Str) :
    ∀ (fuel : Nat) (s q : Str) (qs : List Str),
      splitSeqFuel p0 ps fuel s = q :: qs → q <+: s
  | 0, s, q, qs => by
    intro h
    simp only [splitSeqFuel] at h
    injection h with h1 _
    rw [← h1]
  | _ + 1, [], q, qs => by
    intro h
    simp only [splitSeqFuel] at h
    injection h with h1 _
    rw [← h1]
  | fuel + 1, c :: rest, q, qs => by
    intro h
    simp only [splitSeqFuel] at h
    by_cases hp : (p0 :: ps).isPrefixOf (c :: rest) = true
    · rw [if_pos hp] at h
      injection h with h1 _
      rw [← h1]
      exact ⟨c :: rest, rfl⟩
    · rw [if_neg hp] at h
      rcases hrec : splitSeqFuel p0 ps fuel rest with _ | ⟨q2, qs2⟩
      · exact absurd hrec (splitSeqFuel_ne_nil p0 ps fuel rest)
      · rw [hrec, consHead_cons] at h
        injection h with h1 _
        obtain ⟨t, ht⟩ := splitSeqFuel_head p0 ps fuel rest q2 qs2 hrec
        rw [← h1]
        exact ⟨t, by rw [List.cons_append, ht]⟩

theorem joinSep_consHead (sep : Str) (c : Char) :
    ∀ L : List Str, L ≠ [] → joinSep sep (consHead c L) = c :: joinSep sep L
  | [], h => absurd rfl h
  | [_], _ => rfl
  | _ :: _ :: _, _ => by
    simp [consHead, joinSep, List.cons_append]

theorem joinSep_splitSeqFuel (p0 : Char) (ps : Str) :
    ∀ (fuel : Nat) (s : Str), joinSep (p0 :: ps) (splitSeqFuel p0 ps fuel s) = s
  | 0, _ => rfl
  | _ + 1, [] => rfl
  | fuel + 1, c :: rest => by
    simp only [splitSeqFuel]
    by_cases hp : (p0 :: ps).isPrefixOf (c :: rest) = true
    · rw [if_pos hp]
      rcases hrec : splitSeqFuel p0 ps fuel (rest.drop ps.length) with _ | ⟨q, qs⟩
      · exact absurd hrec (splitSeqFuel_ne_nil p0 ps fuel _)
      · show [] ++ (p0 :: ps) ++ joinSep (p0 :: ps) (q :: qs) = c :: rest
        rw [← hrec, joinSep_splitSeqFuel p0 ps fuel (rest.drop ps.length)]
        have h2 := isPrefixOf_append_drop (p0 :: ps) (c :: rest) hp
        simp only [List.length_cons, List.drop_succ_cons] at h2
        simpa using h2
    · rw [if_neg hp]
      rw [joinSep_consHead (p0 :: ps) c _ (splitSeqFuel_ne_nil p0 ps fuel rest)]
      rw [joinSep_splitSeqFuel p0 ps fuel rest]

theorem not_containsSeq_splitSeqFuel (p0 : Char) (ps : Str) :
    ∀ (fuel : Nat) (s : Str), s.length ≤ fuel →
      ∀ q ∈ splitSeqFuel p0 ps fuel s, containsSeq (p0 :: ps) q = false
  | 0, s, hle => by
    have hs : s = [] := List.length_eq_zero.mp (Nat.le_zero.mp hle)
    subst hs
    intro q hq
    simp only [splitSeqFuel, List.mem_singleton] at hq
    subst hq
    rfl
  | _ + 1, [], _ => by
    intro q hq
    simp only [splitSeqFuel, List.mem_singleton] at hq
    subst hq
    rfl
  | fuel + 1, c :: rest, hle => by
    have hlen : rest.length ≤ fuel := by
      simp only [List.length_cons] at hle
      omega
    intro q hq
    simp only [splitSeqFuel] at hq
    by_cases hp : (p0 :: ps).isPrefixOf (c :: rest) = true
    · rw [if_pos hp] at hq
      rcases List.mem_cons.mp hq with rfl | hq2
      · rfl
      · exact not_containsSeq_splitSeqFuel p0 ps fuel (rest.drop ps.length)
          (by simp only [List.length_drop]; omega) q hq2
    · rw [if_neg hp] at hq
      rcases hrec : splitSeqFuel p0 ps fuel rest with _ | ⟨q2, qs2⟩
      · exact absurd hrec (splitSeqFuel_ne_nil p0 ps fuel rest)
      · rw [hrec, consHead_cons] at hq
        rcases List.mem_cons.mp hq with rfl | hq2
        · have hq2free : containsSeq (p0 :: ps) q2 = false :=
            not_containsSeq_splitSeqFuel p0 ps fuel rest hlen q2
              (by rw [hrec]; exact List.mem_cons_self q2 qs2)
          have hq2pre : q2 <+: rest := splitSeqFuel_head p0 ps fuel rest q2 qs2 hrec
          simp only [containsSeq, Bool.or_eq_false_iff]
          refine ⟨?_, hq2free⟩
          cases hb : (p0 :: ps).isPrefixOf (c :: q2) with
          | false => rfl
          | true =>
            obtain ⟨t, ht⟩ := hq2pre
            have hq2r : (c :: q2) <+: (c :: rest) := ⟨t, by rw [List.cons_append, ht]⟩
            have h3 : (p0 :: ps) <+: (c :: rest) :=
              ((isPrefixOf_iff _ _).mp hb).trans hq2r
            exact absurd ((isPrefixOf_iff _ _).mpr h3) hp
        · exact not_containsSeq_splitSeqFuel p0 ps fuel rest hlen q
            (by rw [hrec]; exact List.mem_cons_of_mem q2 hq2)

theorem dollarExpand_of_no_dollar (matched pre post : Str) :
    ∀ rep : Str, '$' ∉ rep → dollarExpand matched pre post rep = rep
  | [], _ => rfl
  | [_], _ => rfl
  | c :: d :: t, h => by
    have hc : ¬(c = '$') := fun hceq => h (by rw [hceq]; exact List.mem_cons_self _ _)
    simp only [dollarExpand, if_neg hc]
    exact congrArg (c :: ·) (dollarExpand_of_no_dollar matched pre post (d :: t)
      (fun hm => h (List.mem_cons_of_mem c hm)))

theorem jsReplaceFuel_eq_joinSep (p0 : Char) (ps rep : Str) (hrep : '$' ∉ rep) :
    ∀ (fuel : Nat) (pre s : Str),
      jsReplaceFuel p0 ps rep fuel pre s = joinSep rep (splitSeqFuel p0 ps fuel s)
  | 0, _, _ => rfl
  | _ + 1, _, [] => rfl
  | fuel + 1, pre, c :: rest => by
    simp only [jsReplaceFuel, splitSeqFuel]
    by_cases hp : (p0 :: ps).isPrefixOf (c :: rest) = true
    · rw [if_pos hp, if_pos hp]
      rw [dollarExpand_of_no_dollar (p0 :: ps) pre (rest.drop ps.length) rep hrep]
      rw [jsReplaceFuel_eq_joinSep p0 ps rep hrep fuel (pre ++ p0 :: ps)
        (rest.drop ps.length)]
      rcases hrec : splitSeqFuel p0 ps fuel (rest.drop ps.length) with _ | ⟨q, qs⟩
      · exact absurd hrec (splitSeqFuel_ne_nil p0 ps fuel _)
      · show rep ++ joinSep rep (q :: qs) = [] ++ rep ++ joinSep rep (q :: qs)
        simp
    · rw [if_neg hp, if_neg hp]
      rw [jsReplaceFuel_eq_joinSep p0 ps rep hrep fuel (pre ++ [c]) rest]
      rw [joinSep_consHead rep c _ (splitSeqFuel_ne_nil p0 ps fuel rest)]

theorem replaceAll_eq_replaceEvery (p0 : Char) (ps rep s : Str) (hrep : '$' ∉ rep) :
    replaceAll p0 ps rep s = replaceEvery p0 ps rep s :=
  jsReplaceFuel_eq_joinSep p0 ps rep hrep s.length [] s

theorem splitSeqFuel_of_not_containsSeq (p0 : Char) (ps : Str) :
    ∀ (fuel : Nat) (s : Str), containsSeq (p0 :: ps) s = false →
      splitSeqFuel p0 ps fuel s = [s]
  | 0, _, _ => rfl
  | _ + 1, [], _ => rfl
  | fuel + 1, c :: rest, h => by
    simp only [containsSeq, Bool.or_eq_false_iff] at h
    simp only [splitSeqFuel]
    rw [if_neg (by simp [h.1])]
    rw [splitSeqFuel_of_not_containsSeq p0 ps fuel rest h.2]
    rfl

theorem replaceEvery_of_not_containsSeq (p0 : Char) (ps rep s : Str)
    (h : containsSeq (p0 :: ps) s = false) : replaceEvery p0 ps rep s = s := by
  unfold replaceEvery splitSeq
  rw [splitSeqFuel_of_not_containsSeq p0 ps s.length s h]
  rfl

theorem headD_splitOnChar (sep : Char) :
    ∀ s : Str, (splitOnChar sep s).headD [] = s.takeWhile (fun c => c != sep)
  | [] => rfl
  | c :: rest => by
    by_cases hc : c = sep
    · subst hc
      rw [splitOnChar_cons_self]
      simp [List.takeWhile_cons]
    · rw [splitOnChar_cons_ne sep c rest hc]
      rcases hrec : splitOnChar sep rest with _ | ⟨q, qs⟩
      · exact absurd hrec (splitOnChar_ne_nil sep rest)
      · rw [consHead_cons]
        have hIH := headD_splitOnChar sep rest
        rw [hrec] at hIH
        simp only [List.headD_cons] at hIH ⊢
        rw [List.takeWhile_cons, if_pos (by simp [hc])]
        rw [hIH]

theorem getD_one_eq_secondSegD : ∀ l : List Str,
    (if l.length > 1 then l.getD 1 [] else ['0']) = secondSegD l
  | [] => rfl
  | [_] => rfl
  | _ :: _ :: t => by
    rw [if_pos (by simp only [List.length_cons]; omega)]
    rfl

/-- The four stages after the node substitution agree between the source
composition and the claim composition, for any intermediate text. -/
theorem expandTail_eq (jobId base : Str) (hj : '$' ∉ jobId) :
    replaceAll '%' ['%'] ['%']
        (replaceAll '%' ['t'] ['0']
          (replaceAll '%' ['a']
            (if (splitOnChar '_' jobId).length > 1
              then (splitOnChar '_' jobId).getD 1 [] else ['0'])
            (replaceAll '%' ['A'] ((splitOnChar '_' jobId).headD []) base)))
      = replaceEvery '%' ['%'] ['%']
          (replaceEvery '%' ['t'] ['0']
            (replaceEvery '%' ['a'] (secondSegD (splitOnChar '_' jobId))
              (replaceEvery '%' ['A'] (jobId.takeWhile (· != '_')) base))) := by
  have hA : '$' ∉ (splitOnChar '_' jobId).headD [] := by
    rw [headD_splitOnChar '_' jobId]
    intro hm
    exact hj (List.takeWhile_subset _ hm)
  have ha : '$' ∉ secondSegD (splitOnChar '_' jobId) := by
    rcases hsp : splitOnChar '_' jobId with _ | ⟨q, l2⟩
    · exact absurd hsp (splitOnChar_ne_nil '_' jobId)
    · rcases l2 with _ | ⟨q2, qs⟩
      · exact (by decide : '$' ∉ (['0'] : Str))
      · intro hm
        exact hj (mem_of_mem_splitOnChar '_' jobId q2
          (by rw [hsp]; exact List.mem_cons_of_mem q (List.mem_cons_self q2 qs)) '$' hm)
  rw [replaceAll_eq_replaceEvery '%' ['A'] ((splitOnChar '_' jobId).headD []) base hA]
  rw [headD_splitOnChar '_' jobId]
  set s5 := replaceEvery '%' ['A'] (jobId.takeWhile (fun c => c != '_')) base
  rw [getD_one_eq_secondSegD (splitOnChar '_' jobId)]
  rw [replaceAll_eq_replaceEvery '%' ['a'] (secondSegD (splitOnChar '_' jobId)) s5 ha]
  set s6 := replaceEvery '%' ['a'] (secondSegD (splitOnChar '_' jobId)) s5
  rw [replaceAll_eq_replaceEvery '%' ['t'] ['0'] s6 (by decide)]
  set s7 := replaceEvery '%' ['t'] ['0'] s6
  rw [replaceAll_eq_replaceEvery '%' ['%'] ['%'] s7 (by decide)]

/-! Claim theorems for the Path Placeholder Expander. -/

/-- C2 counterexample: for the job id 1_2_3 the claim says the placeholder %a
resolves to the portion after the first underscore, 2_3, but the code takes
split(underscore)[1], which is the segment between the first and second
underscores, 2. -/
theorem expandPathPlaceholders_percent_a_counterexample :
    expandPathPlaceholders "%a".data "1_2_3".data "nm".data "node01".data (some "usr".data)
        = "2".data
    ∧ "2".data ≠ "2_3".data := by
  decide

/-- C2 (amended): for every input path, expandPathPlaceholders returns the
path unchanged when it is empty or the literal N/A and otherwise performs, in
the source order %j, %x, %u, %N, %A, %a, %t, %%, a global replacement of
every occurrence of each placeholder with its value: the job id for %j, the
job name for %x, the user name or the literal user for %u, the first hostname
token stripped of any bracketed range suffix or PENDING_NODE for %N, the
portion of the job id before its first underscore for %A, the second
underscore-separated segment of the job id or 0 for %a, the literal 0 for %t
and a literal percent for %%. The first two conjuncts say that replaceEvery
decomposes the text exactly and at every pattern occurrence, so the equation
with expandClaimFormat states that each pass replaces every occurrence; the
dollar hypotheses restrict to values that String.replace inserts verbatim.
The last conjuncts pin the specification example, the precedence of a letter
placeholder over the percent escape on overlap, and the dollar escape that
keeps a replacement value from being literal. -/
theorem expandPathPlaceholders_spec :
    (∀ (p0 : Char) (ps s : Str), joinSep (p0 :: ps) (splitSeq p0 ps s) = s)
  ∧ (∀ (p0 : Char) (ps s q : Str), q ∈ splitSeq p0 ps s →
      containsSeq (p0 :: ps) q = false)
  ∧ (∀ (path jobId jobName nodes : Str) (username : Option Str),
      '$' ∉ jobId → '$' ∉ jobName → '$' ∉ nodes →
      '$' ∉ username.getD "user".data →
      path ≠ [] → path ≠ "N/A".data →
      expandPathPlaceholders path jobId jobName nodes username
        = expandClaimFormat path jobId jobName nodes username)
  ∧ (∀ (jobId jobName nodes : Str) (username : Option Str),
      expandPathPlaceholders [] jobId jobName nodes username = []
      ∧ expandPathPlaceholders "N/A".data jobId jobName nodes username = "N/A".data)
  ∧ expandPathPlaceholders "slurm-%j-%x.out".data "123_4".data "train".data
      "node01".data (some "usr".data) = "slurm-123_4-train.out".data
  ∧ expandPathPlaceholders "%%j".data "7".data "nm".data "node01".data
      (some "usr".data) = "%7".data
  ∧ expandPathPlaceholders "%j".data "$&".data "nm".data "node01".data
      (some "usr".data) = "%j".data := by
  refine ⟨?_, ?_, ?_, ?_, by decide, by decide, by decide⟩
  · intro p0 ps s
    exact joinSep_splitSeqFuel p0 ps s.length s
  · intro p0 ps s q hq
    exact not_containsSeq_splitSeqFuel p0 ps s.length s (le_refl s.length) q hq
  · intro path jobId jobName nodes username hj hx hn hu hp1 hp2
    have hor : ¬(path = [] ∨ path = "N/A".data) := by
      intro hcase
      rcases hcase with h | h
      · exact hp1 h
      · exact hp2 h
    simp only [expandPathPlaceholders, expandClaimFormat]
    rw [if_neg hor]
    rw [replaceAll_eq_replaceEvery '%' ['j'] jobId path hj]
    set s1 := replaceEvery '%' ['j'] jobId path
    rw [replaceAll_eq_replaceEvery '%' ['x'] jobName s1 hx]
    set s2 := replaceEvery '%' ['x'] jobName s1
    rw [replaceAll_eq_replaceEvery '%' ['u'] (username.getD "user".data) s2 hu]
    set s3 := replaceEvery '%' ['u'] (username.getD "user".data) s2
    by_cases hnn : nodes ≠ [] ∧ nodes ≠ "N/A".data
    · rw [if_pos hnn, if_pos hnn]
      rw [replaceAll_eq_replaceEvery '%' ['N']
        ((nodes.takeWhile (· != ',')).takeWhile (· != '[')) s3
        (fun hm => hn (List.takeWhile_subset _ (List.takeWhile_subset _ hm)))]
      exact expandTail_eq jobId
        (replaceEvery '%' ['N'] ((nodes.takeWhile (· != ',')).takeWhile (· != '[')) s3) hj
    · rw [if_neg hnn, if_neg hnn]
      by_cases hcN : containsSeq "%N".data s3 = true
      · rw [if_pos hcN]
        rw [replaceAll_eq_replaceEvery '%' ['N'] "PENDING_NODE".data s3 (by decide)]
        exact expandTail_eq jobId (replaceEvery '%' ['N'] "PENDING_NODE".data s3) hj
      · rw [if_neg hcN]
        have hfalse : containsSeq "%N".data s3 = false := by simpa using hcN
        rw [replaceEvery_of_not_containsSeq '%' ['N'] "PENDING_NODE".data s3 hfalse]
        exact expandTail_eq jobId s3 hj
  · intro jobId jobName nodes username
    constructor
    · simp [expandPathPlaceholders]
    · simp [expandPathPlaceholders]

theorem expandPathPlaceholders_spec_witness :
    expandPathPlaceholders "a%jb%jc".data "123_4".data "train".data "node01".data
        (some "alice".data)
      = expandClaimFormat "a%jb%jc".data "123_4".data "train".data "node01".data
          (some "alice".data)
    ∧ expandClaimFormat "a%jb%jc".data "123_4".data "train".data "node01".data
        (some "alice".data) = "a123_4b123_4c".data :=
  ⟨expandPathPlaceholders_spec.2.2.1 "a%jb%jc".data "123_4".data "train".data
      "node01".data (some "alice".data) (by decide) (by decide) (by decide) (by decide)
      (by decide) (by decide),
    by decide⟩

/-! Field extraction from the scontrol detail blob. The JavaScript regular
expressions of getJobDetails are fixed literal patterns; each is embedded with
its exact matching semantics: a leftmost overall match, a greedy dot-star that
cannot cross a newline and therefore selects the last viable inner position on
the line, greedy character classes, and greedy digit runs. -/

/-- Renders a natural number in decimal; the fuel argument (any bound above
the number) keeps the recursion structural. -/
def natCharsAux : Nat → Nat → Str
  | 0, _ => []
  | fuel + 1, n =>
    if n < 10 then [Nat.digitChar n]
    else natCharsAux fuel (n / 10) ++ [Nat.digitChar (n % 10)]

def natChars (n : Nat) : Str := natCharsAux (n + 1) n

/-- Scans the suffixes of the text left to right and returns the first
position where the matcher succeeds (the leftmost regex match). -/
def findFirstSome (f : Str → Option α) : Str → Option α
  | [] => f []
  | c :: rest =>
    match f (c :: rest) with
    | some v => some v
    | none => findFirstSome f rest

/-- Scans positions for the part of a pattern after a greedy dot-star: the
rightmost viable position wins, and positions beyond a newline are
unreachable because the dot cannot consume a newline. -/
def findLastInLine (f : Str → Option α) : Str → Option α
  | [] => f []
  | c :: rest =>
    if c = '\n' then f (c :: rest)
    else
      match findLastInLine f rest with
      | some v => some v
      | none => f (c :: rest)

/-- Matches a literal at the current position and yields the remainder. -/
def dropLit (lit : Str) (s : Str) : Option Str :=
  if lit.isPrefixOf s then some (s.drop lit.length) else none

/-- Matches ([^x]+) then the separator x then (\d+) at the current position:
the greedy nonempty run of characters other than x, which must be followed by
x and at least one digit. -/
def classThenCount (x : Char) (r : Str) : Option (Str × Nat) :=
  let ty := r.takeWhile (· != x)
  if ty = [] then none
  else
    match r.drop ty.length with
    | [] => none
    | _ :: r2 =>
      let ds := r2.takeWhile Char.isDigit
      if ds = [] then none else some (ty, natOfDigits ds)

/-- Matches (\d+) at the current position. -/
def digitRun (r : Str) : Option Nat :=
  let ds := r.takeWhile Char.isDigit
  if ds = [] then none else some (natOfDigits ds)

/-- The regex TresPerNode=gres\/gpu:([^:]+):(\d+) over the whole blob. -/
def tresPerNodeMatch (s : Str) : Option (Str × Nat) :=
  findFirstSome (fun t =>
    match dropLit "TresPerNode=gres/gpu:".data t with
    | none => none
    | some r => classThenCount ':' r) s

/-- The regex AllocTRES=.*gres\/gpu:([^=]+)=(\d+) over the whole blob. -/
def allocTresTypeMatch (s : Str) : Option (Str × Nat) :=
  findFirstSome (fun t =>
    match dropLit "AllocTRES=".data t with
    | none => none
    | some r =>
      findLastInLine (fun u =>
        match dropLit "gres/gpu:".data u with
        | none => none
        | some r2 => classThenCount '=' r2) r) s

/-- The regex AllocTRES=.*gres\/gpu=(\d+) over the whole blob. -/
def allocTresCountMatch (s : Str) : Option Nat :=
  findFirstSome (fun t =>
    match dropLit "AllocTRES=".data t with
    | none => none
    | some r =>
      findLastInLine (fun u =>
        match dropLit "gres/gpu=".data u with
        | none => none
        | some r2 => digitRun r2) r) s

/-- The regex AllocTRES=.*mem=(\d+)([KMGT])? over the whole blob, capturing
the digit run and the optional unit character. -/
def allocTresMemMatch (s : Str) : Option (Nat × Option Char) :=
  findFirstSome (fun t =>
    match dropLit "AllocTRES=".data t with
    | none => none
    | some r =>
      findLastInLine (fun u =>
        match dropLit "mem=".data u with
        | none => none
        | some r2 =>
          let ds := r2.takeWhile Char.isDigit
          if ds = [] then none
          else
            match r2.drop ds.length with
            | 'K' :: _ => some (natOfDigits ds, some 'K')
            | 'M' :: _ => some (natOfDigits ds, some 'M')
            | 'G' :: _ => some (natOfDigits ds, some 'G')
            | 'T' :: _ => some (natOfDigits ds, some 'T')
            | _ => some (natOfDigits ds, none)) r) s

/-- The regex Gres=([^\s]+) over the whole blob: the first Gres= key with its
maximal non-whitespace value. -/
def gresValueMatch (s : Str) : Option Str :=
  findFirstSome (fun t =>
    match dropLit "Gres=".data t with
    | none => none
    | some r =>
      let v := r.takeWhile (fun c => !c.isWhitespace)
      if v = [] then none else some v) s

/-- The regex gpu:([^:]+):(\d+) over the captured Gres value. -/
def gpuTypeColonCountMatch (v : Str) : Option (Str × Nat) :=
  findFirstSome (fun t =>
    match dropLit "gpu:".data t with
    | none => none
    | some r => classThenCount ':' r) v

/-- The regex gpu:(\d+) over the captured Gres value. -/
def gpuColonCountMatch (v : Str) : Option Nat :=
  findFirstSome (fun t =>
    match dropLit "gpu:".data t with
    | none => none
    | some r => digitRun r) v

def upperChars (s : Str) : Str := s.map Char.toUpper

/-- JavaScript falsiness of the gpuCount variable: undefined or 0. -/
def jsFalsyCount : Option Nat → Bool
  | none => true
  | some 0 => true
  | some _ => false

/-- JavaScript falsiness of the gpuType variable: undefined or empty. -/
def jsFalsyStr : Option Str → Bool
  | none => true
  | some [] => true
  | some (_ :: _) => false

/-- Embeds the GPU type and count extraction of getJobDetails: four strategies
chained with JavaScript falsiness guards on the gpuType and gpuCount
variables. -/
def getJobDetailsGpu (s : Str) : Option Str × Option Nat :=
  let afterTres : Option Str × Option Nat :=
    match tresPerNodeMatch s with
    | some (ty, c) => (some (upperChars ty), some c)
    | none => (none, none)
  let afterAlloc2 : Option Str × Option Nat :=
    if jsFalsyStr afterTres.1 then
      match allocTresTypeMatch s with
      | some (ty, c) => (some (upperChars ty), some c)
      | none => afterTres
    else afterTres
  let afterAlloc3 : Option Str × Option Nat :=
    if jsFalsyCount afterAlloc2.2 then
      match allocTresCountMatch s with
      | some c => (afterAlloc2.1, some c)
      | none => afterAlloc2
    else afterAlloc2
  if jsFalsyCount afterAlloc3.2 then
    match gresValueMatch s with
    | some v =>
      if v ≠ "(null)".data then
        match gpuTypeColonCountMatch v with
        | some (ty, c) => (some (upperChars ty), some c)
        | none =>
          match gpuColonCountMatch v with
          | some c => (afterAlloc3.1, some c)
          | none => afterAlloc3
      else afterAlloc3
    | none => afterAlloc3
  else afterAlloc3

/-- Embeds the memory extraction of getJobDetails: Math.round(value / 1000)
over a nonnegative integral value is (value + 500) / 1000 in exact natural
arithmetic. -/
def getJobDetailsMemory (s : Str) : Option Str :=
  match allocTresMemMatch s with
  | none => none
  | some (v, uOpt) =>
    let unit := uOpt.getD 'M'
    if unit = 'M' ∧ 1000 ≤ v then some (natChars ((v + 500) / 1000) ++ ['G'])
    else some (natChars v ++ [unit])

/-- Claim-side formalization of C4: the four strategies are tried in order and
extraction stops at the first strategy that matches; a Gres value of (null)
means no GPU; when nothing matches, both results are absent. -/
def gpuFirstSuccessChain (s : Str) : Option Str × Option Nat :=
  match tresPerNodeMatch s with
  | some (ty, c) => (some (upperChars ty), some c)
  | none =>
  match allocTresTypeMatch s with
  | some (ty, c) => (some (upperChars ty), some c)
  | none =>
  match allocTresCountMatch s with
  | some c => (none, some c)
  | none =>
  match gresValueMatch s with
  | some v =>
    if v ≠ "(null)".data then
      match gpuTypeColonCountMatch v with
      | some (ty, c) => (some (upperChars ty), some c)
      | none =>
        match gpuColonCountMatch v with
        | some c => (none, some c)
        | none => (none, none)
    else (none, none)
  | none => (none, none)

theorem findFirstSome_eq_some (f : Str → Option α) :
    ∀ (s : Str) (v : α), findFirstSome f s = some v → ∃ t, f t = some v
  | [], v, h => ⟨[], h⟩
  | c :: rest, v, h => by
    simp only [findFirstSome] at h
    cases hf : f (c :: rest) with
    | some w =>
      rw [hf] at h
      exact ⟨c :: rest, hf.trans h⟩
    | none =>
      rw [hf] at h
      exact findFirstSome_eq_some f rest v h

theorem classThenCount_ne_nil (x : Char) (r ty : Str) (c : Nat)
    (h : classThenCount x r = some (ty, c)) : ty ≠ [] := by
  unfold classThenCount at h
  dsimp only at h
  by_cases h1 : List.takeWhile (fun y => y != x) r = []
  · rw [if_pos h1] at h
    exact absurd h (by simp)
  · rw [if_neg h1] at h
    rcases hd : List.drop (List.takeWhile (fun y => y != x) r).length r with _ | ⟨y, r2⟩ <;>
      rw [hd] at h <;> dsimp only at h
    · exact absurd h (by simp)
    · by_cases h2 : List.takeWhile Char.isDigit r2 = []
      · rw [if_pos h2] at h
        exact absurd h (by simp)
      · rw [if_neg h2] at h
        simp only [Option.some.injEq, Prod.mk.injEq] at h
        rw [← h.1]
        exact h1

theorem tresPerNodeMatch_ty_ne_nil (s ty : Str) (c : Nat)
    (h : tresPerNodeMatch s = some (ty, c)) : ty ≠ [] := by
  obtain ⟨t, ht⟩ := findFirstSome_eq_some _ s _ h
  rcases hd : dropLit "TresPerNode=gres/gpu:".data t with _ | r <;> rw [hd] at ht
  · exact absurd ht (by simp)
  · exact classThenCount_ne_nil ':' r ty c ht

theorem jsFalsyCount_of_ne_zero (c : Nat) (h : c ≠ 0) : jsFalsyCount (some c) = false := by
  cases c with
  | zero => exact absurd rfl h
  | succ n => rfl

theorem jsFalsyStr_of_ne_nil (ty : Str) (h : ty ≠ []) :
    jsFalsyStr (some (upperChars ty)) = false := by
  cases ty with
  | nil => exact absurd rfl h
  | cons a t => rfl

/-! Claim theorems for the Field Extractor. -/

/-- C4 counterexample: on a blob whose per-node resource field reports a GPU
count of zero while the allocated-resources field reports 2, the code keeps
going past the first successful strategy (JavaScript falsiness of the 0 count)
and reports 2, while a stop-at-first-success chain reports 0. -/
theorem getJobDetailsGpu_counterexample :
    getJobDetailsGpu "TresPerNode=gres/gpu:h200:0 AllocTRES=cpu=4,gres/gpu=2".data
        = (some "H200".data, some 2)
    ∧ gpuFirstSuccessChain "TresPerNode=gres/gpu:h200:0 AllocTRES=cpu=4,gres/gpu=2".data
        = (some "H200".data, some 0)
    ∧ getJobDetailsGpu "TresPerNode=gres/gpu:h200:0 AllocTRES=cpu=4,gres/gpu=2".data
        ≠ gpuFirstSuccessChain "TresPerNode=gres/gpu:h200:0 AllocTRES=cpu=4,gres/gpu=2".data := by
  refine ⟨by decide, by decide, by decide⟩

/-- C4 (amended): the extraction tries the four strategies in order and stops
at the first success whenever that success carries a nonzero GPU count; a
strategy yielding a count of zero leaves the count falsy, so the later
count strategies still run and may overwrite it; a Gres value of (null) means
no GPU; and when no strategy matches, count and type are absent, not zero. -/
theorem getJobDetailsGpu_spec (s : Str) :
    ((gpuFirstSuccessChain s).2 ≠ some 0 → getJobDetailsGpu s = gpuFirstSuccessChain s)
  ∧ getJobDetailsGpu "Gres=(null)".data = (none, none)
  ∧ getJobDetailsGpu "JobId=77 Partition=gpu22".data = (none, none)
  ∧ getJobDetailsGpu "TresPerNode=gres/gpu:h200:2".data = (some "H200".data, some 2)
  ∧ getJobDetailsGpu "AllocTRES=cpu=4,gres/gpu:a100=3".data = (some "A100".data, some 3)
  ∧ getJobDetailsGpu "AllocTRES=cpu=4,gres/gpu=2".data = (none, some 2)
  ∧ getJobDetailsGpu "Gres=gpu:a100:2".data = (some "A100".data, some 2)
  ∧ getJobDetailsGpu "Gres=gpu:4".data = (none, some 4) := by
  refine ⟨?_, by decide, by decide, by decide, by decide, by decide, by decide, by decide⟩
  intro hnz
  rcases h1 : tresPerNodeMatch s with _ | ⟨ty, c⟩
  · rcases h2 : allocTresTypeMatch s with _ | ⟨ty2, c2⟩
    · rcases h3 : allocTresCountMatch s with _ | c3
      · rcases h4 : gresValueMatch s with _ | v
        · simp [getJobDetailsGpu, gpuFirstSuccessChain, h1, h2, h3, h4, jsFalsyStr,
            jsFalsyCount]
        · by_cases hv : v = "(null)".data
          · simp [getJobDetailsGpu, gpuFirstSuccessChain, h1, h2, h3, h4, hv, jsFalsyStr,
              jsFalsyCount]
          · rcases h5 : gpuTypeColonCountMatch v with _ | ⟨ty5, c5⟩
            · rcases h6 : gpuColonCountMatch v with _ | c6 <;>
                simp [getJobDetailsGpu, gpuFirstSuccessChain, h1, h2, h3, h4, h5, h6, hv,
                  jsFalsyStr, jsFalsyCount]
            · simp [getJobDetailsGpu, gpuFirstSuccessChain, h1, h2, h3, h4, h5, hv,
                jsFalsyStr, jsFalsyCount]
      · have hc3 : c3 ≠ 0 := by
          rw [gpuFirstSuccessChain, h1, h2, h3] at hnz
          simp only [ne_eq, Option.some.injEq] at hnz
          exact hnz
        simp [getJobDetailsGpu, gpuFirstSuccessChain, h1, h2, h3, jsFalsyStr,
          jsFalsyCount, jsFalsyCount_of_ne_zero c3 hc3]
    · have hc2 : c2 ≠ 0 := by
        rw [gpuFirstSuccessChain, h1, h2] at hnz
        simp only [ne_eq, Option.some.injEq] at hnz
        exact hnz
      simp [getJobDetailsGpu, gpuFirstSuccessChain, h1, h2, jsFalsyStr,
        jsFalsyCount, jsFalsyCount_of_ne_zero c2 hc2]
  · have hc : c ≠ 0 := by
      rw [gpuFirstSuccessChain, h1] at hnz
      simp only [ne_eq, Option.some.injEq] at hnz
      exact hnz
    simp [getJobDetailsGpu, gpuFirstSuccessChain, h1,
      jsFalsyStr_of_ne_nil ty (tresPerNodeMatch_ty_ne_nil s ty c h1),
      jsFalsyCount_of_ne_zero c hc]

theorem getJobDetailsGpu_spec_witness :
    (gpuFirstSuccessChain "TresPerNode=gres/gpu:h200:2".data).2 ≠ some 0 ∧
    getJobDetailsGpu "TresPerNode=gres/gpu:h200:2".data
      = gpuFirstSuccessChain "TresPerNode=gres/gpu:h200:2".data :=
  ⟨by decide, (getJobDetailsGpu_spec "TresPerNode=gres/gpu:h200:2".data).1 (by decide)⟩

/-- Claim-side formalization of the memory report of C3: the unit defaults to
M when absent; a value in megabytes of at least 1000 is converted to gigabytes
by rounding the exact rational value / 1000; in every other case the raw
number keeps its unit suffix. -/
def memoryClaimFormat (v : Nat) (uOpt : Option Char) : Str :=
  let unit := uOpt.getD 'M'
  if unit = 'M' ∧ 1000 ≤ v then natChars (round ((v : ℚ) / 1000)).toNat ++ ['G']
  else natChars v ++ [unit]

/-- C3: when the allocated-resources field matches mem=(digits)(unit?), the
reported memory is the claim-side format (unit defaulting to M, rounded
gigabyte conversion at and above 1000 megabytes, raw value with unit suffix
otherwise); when nothing matches the memory is absent; with concrete
instances for each branch. -/
theorem getJobDetailsMemory_spec (s : Str) :
    (∀ v uOpt, allocTresMemMatch s = some (v, uOpt) →
      getJobDetailsMemory s = some (memoryClaimFormat v uOpt))
  ∧ (allocTresMemMatch s = none → getJobDetailsMemory s = none)
  ∧ (∀ v, memoryClaimFormat v none = memoryClaimFormat v (some 'M'))
  ∧ getJobDetailsMemory "AllocTRES=cpu=72,mem=500000M,node=2".data = some "500G".data
  ∧ getJobDetailsMemory "AllocTRES=cpu=4,mem=1500M".data = some "2G".data
  ∧ getJobDetailsMemory "AllocTRES=cpu=4,mem=512M".data = some "512M".data
  ∧ getJobDetailsMemory "AllocTRES=cpu=4,mem=4G".data = some "4G".data
  ∧ getJobDetailsMemory "AllocTRES=cpu=4,mem=900".data = some "900M".data
  ∧ getJobDetailsMemory "JobId=1 ReqTRES=cpu=4".data = none := by
  refine ⟨?_, ?_, ?_, by decide, by decide, by decide, by decide, by decide, by decide⟩
  · intro v uOpt h
    have hconv : (v + 500) / 1000 = (round ((v : ℚ) / 1000)).toNat := by
      have h1 := natRoundDiv v 1000 (by norm_num)
      have h2 : (2 * v + 1000) / 2000 = (v + 500) / 1000 := by
        rw [show 2 * v + 1000 = 2 * (v + 500) from by ring,
          show 2000 = 2 * 1000 from rfl, Nat.mul_div_mul_left _ _ (by norm_num)]
      rw [h2] at h1
      rw [show ((1000 : ℕ) : ℚ) = (1000 : ℚ) from by norm_num] at h1
      rw [← h1, Int.toNat_natCast]
    unfold getJobDetailsMemory memoryClaimFormat
    rw [h]
    dsimp only
    split_ifs with hcond
    · rw [hconv]
    · rfl
  · intro h
    unfold getJobDetailsMemory
    rw [h]
  · intro v
    rfl

theorem getJobDetailsMemory_spec_witness :
    allocTresMemMatch "AllocTRES=cpu=4,mem=1500M".data = some (1500, some 'M') ∧
    getJobDetailsMemory "AllocTRES=cpu=4,mem=1500M".data
      = some (memoryClaimFormat 1500 (some 'M')) :=
  ⟨by decide,
    (getJobDetailsMemory_spec "AllocTRES=cpu=4,mem=1500M".data).1 1500 (some 'M') (by decide)⟩

/-! Job history parsing (getJobHistory in slurmService.ts): the sacct output
is the input text; Date parsing of end timestamps is an explicit parameter
giving each timestamp its millisecond value. -/

/-- JavaScript String.prototype.trim on a character list. -/
def trimChars (s : Str) : Str :=
  ((s.dropWhile Char.isWhitespace).reverse.dropWhile Char.isWhitespace).reverse

/-- The or-N/A defaulting idiom: an empty (falsy) trimmed field becomes N/A. -/
def orNA (s : Str) : Str := if s = [] then "N/A".data else s

structure HistoryJob where
  jobId : Str
  name : Str
  state : Str
  exitCode : Int
  startTime : Str
  endTime : Str
  elapsed : Str
  partition : Str
  nodes : Str
  cpus : Str
  maxMemory : Str
  stdoutPath : Str
  stderrPath : Str
deriving DecidableEq

/-- Embeds the per-line parsing of getJobHistory: blank lines and lines with
fewer than 9 pipe-separated fields are dropped; sub-step identifiers
(containing a dot) and RUNNING or PENDING states are skipped; the exit code is
the parsed integer before the first colon of the exit-code field, with the
or-zero default; optional fields default to N/A. -/
def parseHistoryLine (line : Str) : Option HistoryJob :=
  if trimChars line = [] then none
  else
    let parts := splitOnChar '|' line
    if parts.length ≥ 9 then
      let jobId := trimChars (parts.getD 0 [])
      if '.' ∈ jobId then none
      else
        let state := trimChars (parts.getD 2 [])
        if state = "RUNNING".data ∨ state = "PENDING".data then none
        else
          some
            { jobId := jobId
              name := orNA (trimChars (parts.getD 1 []))
              state := state
              exitCode := jsParseIntOr0 ((splitOnChar ':' (trimChars (parts.getD 3 []))).headD [])
              startTime := orNA (trimChars (parts.getD 4 []))
              endTime := orNA (trimChars (parts.getD 5 []))
              elapsed := orNA (trimChars (parts.getD 6 []))
              partition := orNA (trimChars (parts.getD 7 []))
              nodes := orNA (trimChars (parts.getD 8 []))
              cpus := orNA (trimChars (parts.getD 9 []))
              maxMemory := orNA (trimChars (parts.getD 10 []))
              stdoutPath := "N/A".data
              stderrPath := "N/A".data }
    else none

/-- The sort comparator of getJobHistory as a total boolean order: entries
without an end timestamp sort last, and known end timestamps sort descending
by their Date value. Two entries both lacking an end timestamp are order
equivalent (the source comparator is inconsistent on that pair, and the claim
leaves their relative order unspecified). -/
def historyLe (dateVal : Str → Int) (a b : HistoryJob) : Bool :=
  if a.endTime = "N/A".data then decide (b.endTime = "N/A".data)
  else if b.endTime = "N/A".data then true
  else decide (dateVal b.endTime ≤ dateVal a.endTime)

def insertLe (le : α → α → Bool) (a : α) : List α → List α
  | [] => [a]
  | b :: rest => if le a b then a :: b :: rest else b :: insertLe le a rest

def sortLe (le : α → α → Bool) : List α → List α
  | [] => []
  | a :: rest => insertLe le a (sortLe le rest)

/-- Embeds getJobHistory applied to the raw sacct standard output: trim, split
into lines, parse each line, and sort by the end-time comparator. -/
def getJobHistory (stdout : Str) (dateVal : Str → Int) : List HistoryJob :=
  sortLe (historyLe dateVal) ((splitOnChar '\n' (trimChars stdout)).filterMap parseHistoryLine)

theorem mem_insertLe (le : α → α → Bool) (a x : α) :
    ∀ l : List α, x ∈ insertLe le a l ↔ x = a ∨ x ∈ l
  | [] => by simp [insertLe]
  | b :: rest => by
    simp only [insertLe]
    split
    · simp
    · rw [List.mem_cons, List.mem_cons, mem_insertLe le a x rest]
      tauto

theorem perm_insertLe (le : α → α → Bool) (a : α) :
    ∀ l : List α, (insertLe le a l).Perm (a :: l)
  | [] => by simp [insertLe]
  | b :: rest => by
    simp only [insertLe]
    split
    · exact List.Perm.refl _
    · exact ((perm_insertLe le a rest).cons b).trans (List.Perm.swap a b rest)

theorem perm_sortLe (le : α → α → Bool) :
    ∀ l : List α, (sortLe le l).Perm l
  | [] => List.Perm.refl _
  | a :: rest =>
    (perm_insertLe le a (sortLe le rest)).trans ((perm_sortLe le rest).cons a)

theorem pairwise_insertLe (le : α → α → Bool)
    (htot : ∀ x y, le x y = true ∨ le y x = true)
    (htrans : ∀ x y z, le x y = true → le y z = true → le x z = true) (a : α) :
    ∀ l : List α, l.Pairwise (fun x y => le x y = true) →
      (insertLe le a l).Pairwise (fun x y => le x y = true)
  | [], _ => by simp [insertLe]
  | b :: rest, hp => by
    simp only [insertLe]
    rcases List.pairwise_cons.mp hp with ⟨hb, hrest⟩
    split
    · rename_i hab
      refine List.pairwise_cons.mpr ⟨?_, hp⟩
      intro x hx
      rcases List.mem_cons.mp hx with rfl | hx
      · exact hab
      · exact htrans a b x hab (hb x hx)
    · rename_i hab
      have hba : le b a = true := by
        rcases htot a b with h | h
        · exact absurd h hab
        · exact h
      refine List.pairwise_cons.mpr ⟨?_, pairwise_insertLe le htot htrans a rest hrest⟩
      intro x hx
      rcases (mem_insertLe le a x rest).mp hx with rfl | hx
      · exact hba
      · exact hb x hx

theorem pairwise_sortLe (le : α → α → Bool)
    (htot : ∀ x y, le x y = true ∨ le y x = true)
    (htrans : ∀ x y z, le x y = true → le y z = true → le x z = true) :
    ∀ l : List α, (sortLe le l).Pairwise (fun x y => le x y = true)
  | [] => List.Pairwise.nil
  | a :: rest =>
    pairwise_insertLe le htot htrans a (sortLe le rest)
      (pairwise_sortLe le htot htrans rest)

theorem historyLe_total (dateVal : Str → Int) (a b : HistoryJob) :
    historyLe dateVal a b = true ∨ historyLe dateVal b a = true := by
  unfold historyLe
  by_cases ha : a.endTime = "N/A".data <;> by_cases hb : b.endTime = "N/A".data <;>
    (simp [ha, hb]; all_goals omega)

theorem historyLe_trans (dateVal : Str → Int) (a b c : HistoryJob)
    (hab : historyLe dateVal a b = true) (hbc : historyLe dateVal b c = true) :
    historyLe dateVal a c = true := by
  unfold historyLe at *
  by_cases ha : a.endTime = "N/A".data <;> by_cases hb : b.endTime = "N/A".data <;>
    by_cases hc : c.endTime = "N/A".data <;>
    (simp_all; all_goals omega)

theorem parseHistoryLine_props (line : Str) (j : HistoryJob)
    (h : parseHistoryLine line = some j) :
    ('.' ∉ j.jobId) ∧ j.state ≠ "RUNNING".data ∧ j.state ≠ "PENDING".data ∧
    j.exitCode = jsParseIntOr0
      ((splitOnChar ':' (trimChars ((splitOnChar '|' line).getD 3 []))).headD []) := by
  unfold parseHistoryLine at h
  by_cases h0 : trimChars line = []
  · rw [if_pos h0] at h
    exact absurd h (by simp)
  · rw [if_neg h0] at h
    dsimp only at h
    by_cases h1 : (splitOnChar '|' line).length ≥ 9
    case neg =>
      rw [if_neg h1] at h
      exact absurd h (by simp)
    rw [if_pos h1] at h
    by_cases h2 : '.' ∈ trimChars ((splitOnChar '|' line).getD 0 [])
    · rw [if_pos h2] at h
      exact absurd h (by simp)
    · rw [if_neg h2] at h
      by_cases h3 : trimChars ((splitOnChar '|' line).getD 2 []) = "RUNNING".data ∨
          trimChars ((splitOnChar '|' line).getD 2 []) = "PENDING".data
      · rw [if_pos h3] at h
        exact absurd h (by simp)
      · rw [if_neg h3] at h
        simp only [Option.some.injEq] at h
        subst h
        push_neg at h3
        exact ⟨h2, h3.1, h3.2, rfl⟩

theorem historyLe_imp (dateVal : Str → Int) (a b : HistoryJob)
    (h : historyLe dateVal a b = true) :
    (a.endTime = "N/A".data → b.endTime = "N/A".data) ∧
    (a.endTime ≠ "N/A".data → b.endTime ≠ "N/A".data →
      dateVal b.endTime ≤ dateVal a.endTime) := by
  unfold historyLe at h
  by_cases ha : a.endTime = "N/A".data <;> by_cases hb : b.endTime = "N/A".data <;>
    simp_all

/-! Claim theorem for the history parser (C7). -/

/-- C7: every record returned by the history parser has a dot-free identifier
and a state that is neither RUNNING nor PENDING; the exit code of every kept
record is the or-zero parsed integer before the first colon of its exit-code
field; the result is a permutation of the kept records, sorted descending by
end timestamp with unknown end timestamps last; and the concrete drop
and exit-code cases from the specification hold. -/
theorem getJobHistory_spec (stdout : Str) (dateVal : Str → Int) :
    (∀ j ∈ getJobHistory stdout dateVal,
      ('.' ∉ j.jobId) ∧ j.state ≠ "RUNNING".data ∧ j.state ≠ "PENDING".data)
  ∧ (∀ line j, parseHistoryLine line = some j →
      j.exitCode = jsParseIntOr0
        ((splitOnChar ':' (trimChars ((splitOnChar '|' line).getD 3 []))).headD []))
  ∧ (getJobHistory stdout dateVal).Pairwise (fun a b =>
      (a.endTime = "N/A".data → b.endTime = "N/A".data) ∧
      (a.endTime ≠ "N/A".data → b.endTime ≠ "N/A".data →
        dateVal b.endTime ≤ dateVal a.endTime))
  ∧ (getJobHistory stdout dateVal).Perm
      ((splitOnChar '\n' (trimChars stdout)).filterMap parseHistoryLine)
  ∧ parseHistoryLine "12345.batch|n|FAILED|1:0|s|e|el|p|nd".data = none
  ∧ parseHistoryLine "1|n|RUNNING|0:0|s|e|el|p|nd".data = none
  ∧ parseHistoryLine "1|n|PENDING|0:0|s|e|el|p|nd".data = none
  ∧ (parseHistoryLine "1|n|FAILED|7:9|s|e|el|p|nd".data).map (fun j => j.exitCode) = some 7
  ∧ (parseHistoryLine "1|n|FAILED|x:9|s|e|el|p|nd".data).map (fun j => j.exitCode)
      = some 0 := by
  refine ⟨?_, ?_, ?_, perm_sortLe _ _, by decide, by decide, by decide, by decide, by decide⟩
  · intro j hj
    have hj2 : j ∈ (splitOnChar '\n' (trimChars stdout)).filterMap parseHistoryLine :=
      (perm_sortLe (historyLe dateVal) _).mem_iff.mp hj
    obtain ⟨line, _, hp⟩ := List.mem_filterMap.mp hj2
    obtain ⟨ha, hb, hc, _⟩ := parseHistoryLine_props line j hp
    exact ⟨ha, hb, hc⟩
  · intro line j hp
    exact (parseHistoryLine_props line j hp).2.2.2
  · exact (pairwise_sortLe (historyLe dateVal) (historyLe_total dateVal)
      (historyLe_trans dateVal) _).imp
      (fun h => historyLe_imp dateVal _ _ h)

def historyWitnessJob : HistoryJob :=
  { jobId := "1".data
    name := "n".data
    state := "FAILED".data
    exitCode := 7
    startTime := "s".data
    endTime := "e".data
    elapsed := "el".data
    partition := "p".data
    nodes := "nd".data
    cpus := "N/A".data
    maxMemory := "N/A".data
    stdoutPath := "N/A".data
    stderrPath := "N/A".data }

theorem getJobHistory_spec_witness :
    parseHistoryLine "1|n|FAILED|7:9|s|e|el|p|nd".data = some historyWitnessJob ∧
    historyWitnessJob.exitCode = jsParseIntOr0
      ((splitOnChar ':' (trimChars
        ((splitOnChar '|' "1|n|FAILED|7:9|s|e|el|p|nd".data).getD 3 []))).headD []) :=
  ⟨by decide,
    (getJobHistory_spec [] (fun _ => 0)).2.1 "1|n|FAILED|7:9|s|e|el|p|nd".data
      historyWitnessJob (by decide)⟩

/-! Submit script cache (submitScriptCache.ts). The filesystem, wall clock,
copy failures and persistence failures are explicit: the state carries the
metadata map and the set of existing files, the current Date.now() value is
an argument, one boolean says whether copyFileSync would throw and another
whether the awaited globalState.update persistence write would reject. In
the source, cache.set runs before the await of saveCache and the catch
swallows a rejection of that write, so a persistence failure returns
undefined while the new entry stays in the in-memory map and the file has
already been copied. -/

structure CachedSubmitScript where
  originalPath : Str
  cachedPath : Str
  cachedAt : Nat
deriving DecidableEq

structure ScriptCacheState where
  cache : List (Str × CachedSubmitScript)
  files : List Str
deriving DecidableEq

/-- Map.get on the metadata association list. -/
def cacheLookup (jobId : Str) (m : List (Str × CachedSubmitScript)) :
    Option CachedSubmitScript :=
  (m.find? (fun p => p.1 = jobId)).map (fun p => p.2)

/-- The character class [^a-zA-Z0-9_-] replaced by an underscore. -/
def sanitizeChar (c : Char) : Char :=
  if c.isAlpha ∨ c.isDigit ∨ c = '_' ∨ c = '-' then c else '_'

/-- The rightmost suffix beginning with a dot. -/
def lastDotSuffix : Str → Option Str
  | [] => none
  | c :: rest =>
    match lastDotSuffix rest with
    | some v => some v
    | none => if c = '.' then some (c :: rest) else none

/-- node path.extname: the suffix of the final path component from its last
dot, where a dot at position zero does not start an extension. -/
def extname (p : Str) : Str :=
  match (splitOnChar '/' p).getLastD [] with
  | [] => []
  | _ :: tail =>
    match lastDotSuffix tail with
    | some v => v
    | none => []

/-- The cache directory under the host-provided global storage path. -/
def cacheDir : Str := "submit-scripts".data

/-- The archived filename: sanitized job id, capture timestamp and the
original extension (falling back to .sh), joined under the cache directory. -/
def archivedPathOf (jobId : Str) (now : Nat) (orig : Str) : Str :=
  cacheDir ++ '/' :: (jobId.map sanitizeChar ++ '_' :: natChars now ++
    (if extname orig = [] then ".sh".data else extname orig))

/-- Embeds cacheScript from submitScriptCache.ts. Returns the optional
archived path, the new state, and the number of file copies performed by the
call. copyFails models copyFileSync throwing, which happens before any
mutation; saveFails models the awaited globalState.update rejecting, which
the source catches only after the copy has happened and the entry has been
inserted into the in-memory map, so that path returns an absent result with
the mutation in place. -/
def cacheScript (st : ScriptCacheState) (jobId originalScriptPath : Str) (now : Nat)
    (copyFails saveFails : Bool) : Option Str × ScriptCacheState × Nat :=
  match cacheLookup jobId st.cache with
  | some entry => (some entry.cachedPath, st, 0)
  | none =>
    if originalScriptPath = [] ∨ originalScriptPath = "N/A".data then (none, st, 0)
    else if originalScriptPath ∉ st.files then (none, st, 0)
    else if copyFails then (none, st, 0)
    else
      ((if saveFails then none else some (archivedPathOf jobId now originalScriptPath)),
        ⟨(jobId, ⟨originalScriptPath, archivedPathOf jobId now originalScriptPath, now⟩)
            :: st.cache,
          archivedPathOf jobId now originalScriptPath :: st.files⟩, 1)

theorem cacheLookup_insert_self (jobId : Str) (entry : CachedSubmitScript)
    (m : List (Str × CachedSubmitScript)) :
    cacheLookup jobId ((jobId, entry) :: m) = some entry := by
  simp [cacheLookup, List.find?_cons_of_pos]

theorem cacheScript_lookup_some (st : ScriptCacheState) (jobId orig : Str) (now : Nat)
    (copyFails saveFails : Bool) (entry : CachedSubmitScript)
    (hl : cacheLookup jobId st.cache = some entry) :
    cacheScript st jobId orig now copyFails saveFails = (some entry.cachedPath, st, 0) := by
  unfold cacheScript
  rw [hl]

theorem cacheScript_lookup_none (st : ScriptCacheState) (jobId orig : Str) (now : Nat)
    (copyFails saveFails : Bool) (hl : cacheLookup jobId st.cache = none) :
    cacheScript st jobId orig now copyFails saveFails =
      (if orig = [] ∨ orig = "N/A".data then (none, st, 0)
      else if orig ∉ st.files then (none, st, 0)
      else if copyFails then (none, st, 0)
      else
        ((if saveFails then none else some (archivedPathOf jobId now orig)),
          ⟨(jobId, ⟨orig, archivedPathOf jobId now orig, now⟩) :: st.cache,
            archivedPathOf jobId now orig :: st.files⟩, 1)) := by
  unfold cacheScript
  rw [hl]

/-! Claim theorems for the script cache (C8 and C10). -/

/-- C8: cacheScript is idempotent per job id: whenever a call returns an
archived path, a second call with the same job id (any original path, clock
value, copy outcome or persistence outcome) returns the identical path,
leaves the state unchanged and performs no file copy. -/
theorem cacheScript_idempotent (st : ScriptCacheState) (jobId originalScriptPath : Str)
    (now : Nat) (copyFails saveFails : Bool) (p : Str) (st1 : ScriptCacheState)
    (copies : Nat) (orig2 : Str) (now2 : Nat) (copyFails2 saveFails2 : Bool)
    (h : cacheScript st jobId originalScriptPath now copyFails saveFails
      = (some p, st1, copies)) :
    cacheScript st1 jobId orig2 now2 copyFails2 saveFails2 = (some p, st1, 0) := by
  rcases hl : cacheLookup jobId st.cache with _ | entry
  · rw [cacheScript_lookup_none st jobId originalScriptPath now copyFails saveFails hl] at h
    by_cases h1 : originalScriptPath = [] ∨ originalScriptPath = "N/A".data
    · rw [if_pos h1] at h
      exact absurd h (by simp)
    · rw [if_neg h1] at h
      by_cases h2 : originalScriptPath ∉ st.files
      · rw [if_pos h2] at h
        exact absurd h (by simp)
      · rw [if_neg h2] at h
        by_cases h3 : copyFails = true
        · rw [if_pos h3] at h
          exact absurd h (by simp)
        · rw [if_neg h3] at h
          by_cases h4 : saveFails = true
          · rw [if_pos h4] at h
            exact absurd h (by simp)
          · rw [if_neg h4] at h
            simp only [Prod.mk.injEq, Option.some.injEq] at h
            obtain ⟨hp, hst, -⟩ := h
            rw [cacheScript_lookup_some st1 jobId orig2 now2 copyFails2 saveFails2
              ⟨originalScriptPath, archivedPathOf jobId now originalScriptPath, now⟩
              (by rw [← hst]; exact cacheLookup_insert_self jobId _ st.cache)]
            rw [← hst, hp]
  · rw [cacheScript_lookup_some st jobId originalScriptPath now copyFails saveFails
      entry hl] at h
    simp only [Prod.mk.injEq, Option.some.injEq] at h
    obtain ⟨hp, hst, -⟩ := h
    rw [cacheScript_lookup_some st1 jobId orig2 now2 copyFails2 saveFails2 entry
      (by rw [← hst]; exact hl)]
    rw [hp]

/-- C10 counterexample: in the source the metadata insertion precedes the
awaited persistence write and a rejection of that write is caught and turned
into an undefined result: the call then reports failure although the
in-memory map has gained the entry and the file copy has happened, against
the claimed failure-path atomicity. -/
theorem cacheScript_persistence_counterexample :
    (cacheScript ⟨[], ["a/b.sh".data]⟩ "9".data "a/b.sh".data 5 false true).1 = none
  ∧ (cacheScript ⟨[], ["a/b.sh".data]⟩ "9".data "a/b.sh".data 5 false true).2.1.cache ≠ []
  ∧ (cacheScript ⟨[], ["a/b.sh".data]⟩ "9".data "a/b.sh".data 5 false true).2.2 = 1 := by
  decide

/-- C10 (amended, implicit): an absent result leaves the metadata map exactly
as it was and copies nothing whenever the persistence write succeeded, and in
particular on each failure path the claim enumerates (empty or N/A original
path, missing original file, copy failure) regardless of the persistence
outcome; but an absent result can also arise from a rejected persistence
write, and then the map has already gained the new entry and one file copy
has been performed, so the claimed atomicity does not extend to that path. -/
theorem cacheScript_failure_atomic (st : ScriptCacheState) (jobId originalScriptPath : Str)
    (now : Nat) (copyFails saveFails : Bool)
    (h : (cacheScript st jobId originalScriptPath now copyFails saveFails).1 = none) :
    (saveFails = false →
      (cacheScript st jobId originalScriptPath now copyFails saveFails).2.1.cache = st.cache
      ∧ (cacheScript st jobId originalScriptPath now copyFails saveFails).2.2 = 0)
  ∧ ((originalScriptPath = [] ∨ originalScriptPath = "N/A".data
        ∨ originalScriptPath ∉ st.files ∨ copyFails = true) →
      (cacheScript st jobId originalScriptPath now copyFails saveFails).2.1.cache = st.cache
      ∧ (cacheScript st jobId originalScriptPath now copyFails saveFails).2.2 = 0)
  ∧ (originalScriptPath ≠ [] → originalScriptPath ≠ "N/A".data
      → originalScriptPath ∈ st.files → copyFails = false → saveFails = true →
      (cacheScript st jobId originalScriptPath now copyFails saveFails).2.1.cache
        = (jobId, ⟨originalScriptPath, archivedPathOf jobId now originalScriptPath, now⟩)
            :: st.cache
      ∧ (cacheScript st jobId originalScriptPath now copyFails saveFails).2.2 = 1) := by
  rcases hl : cacheLookup jobId st.cache with _ | entry
  · rw [cacheScript_lookup_none st jobId originalScriptPath now copyFails saveFails hl]
      at h ⊢
    by_cases h1 : originalScriptPath = [] ∨ originalScriptPath = "N/A".data
    · rw [if_pos h1]
      refine ⟨fun _ => ⟨rfl, rfl⟩, fun _ => ⟨rfl, rfl⟩, ?_⟩
      intro hne hna _ _ _
      rcases h1 with he | hna2
      · exact absurd he hne
      · exact absurd hna2 hna
    · rw [if_neg h1] at h ⊢
      by_cases h2 : originalScriptPath ∉ st.files
      · rw [if_pos h2]
        refine ⟨fun _ => ⟨rfl, rfl⟩, fun _ => ⟨rfl, rfl⟩, ?_⟩
        intro _ _ hmem _ _
        exact absurd hmem h2
      · rw [if_neg h2] at h ⊢
        by_cases h3 : copyFails = true
        · rw [if_pos h3]
          refine ⟨fun _ => ⟨rfl, rfl⟩, fun _ => ⟨rfl, rfl⟩, ?_⟩
          intro _ _ _ hcf _
          rw [h3] at hcf
          exact Bool.noConfusion hcf
        · rw [if_neg h3] at h ⊢
          by_cases h4 : saveFails = true
          · refine ⟨?_, ?_, ?_⟩
            · intro hsf
              rw [h4] at hsf
              exact Bool.noConfusion hsf
            · intro hor
              rcases hor with he | hna | hnf | hcf
              · exact absurd (Or.inl he) h1
              · exact absurd (Or.inr hna) h1
              · exact absurd hnf h2
              · exact absurd hcf h3
            · intro _ _ _ _ _
              exact ⟨rfl, rfl⟩
          · rw [if_neg h4] at h
            exact absurd h (by simp)
  · rw [cacheScript_lookup_some st jobId originalScriptPath now copyFails saveFails
      entry hl] at h
    exact absurd h (by simp)

theorem cacheScript_idempotent_witness :
    cacheScript ⟨[], ["a/b.sh".data]⟩ "9".data "a/b.sh".data 5 false false
      = (some (archivedPathOf "9".data 5 "a/b.sh".data),
        ⟨[("9".data, ⟨"a/b.sh".data, archivedPathOf "9".data 5 "a/b.sh".data, 5⟩)],
          [archivedPathOf "9".data 5 "a/b.sh".data, "a/b.sh".data]⟩, 1) ∧
    cacheScript ⟨[("9".data, ⟨"a/b.sh".data, archivedPathOf "9".data 5 "a/b.sh".data, 5⟩)],
        [archivedPathOf "9".data 5 "a/b.sh".data, "a/b.sh".data]⟩
        "9".data "c/d.sh".data 8 true true
      = (some (archivedPathOf "9".data 5 "a/b.sh".data),
        ⟨[("9".data, ⟨"a/b.sh".data, archivedPathOf "9".data 5 "a/b.sh".data, 5⟩)],
          [archivedPathOf "9".data 5 "a/b.sh".data, "a/b.sh".data]⟩, 0) :=
  ⟨by decide,
    cacheScript_idempotent ⟨[], ["a/b.sh".data]⟩ "9".data "a/b.sh".data 5 false false
      (archivedPathOf "9".data 5 "a/b.sh".data)
      ⟨[("9".data, ⟨"a/b.sh".data, archivedPathOf "9".data 5 "a/b.sh".data, 5⟩)],
        [archivedPathOf "9".data 5 "a/b.sh".data, "a/b.sh".data]⟩ 1
      "c/d.sh".data 8 true true (by decide)⟩

theorem cacheScript_failure_atomic_witness :
    ((cacheScript ⟨[], ["a/b.sh".data]⟩ "7".data "a/b.sh".data 3 false true).1 = none) ∧
    ((cacheScript ⟨[], ["a/b.sh".data]⟩ "7".data "a/b.sh".data 3 false true).2.1.cache
        = ("7".data, ⟨"a/b.sh".data, archivedPathOf "7".data 3 "a/b.sh".data, 3⟩) :: []
      ∧ (cacheScript ⟨[], ["a/b.sh".data]⟩ "7".data "a/b.sh".data 3 false true).2.2 = 1) :=
  ⟨by decide,
    (cacheScript_failure_atomic ⟨[], ["a/b.sh".data]⟩ "7".data "a/b.sh".data 3 false true
        (by decide)).2.2 (by decide) (by decide) (by decide) (by decide) (by decide)⟩

/-! Pinned jobs cache (PinnedJobsCache.cleanupStaleJobs). State is the map
from job id to the millisecond timestamp at which it was pinned; the wall
clock is an argument. -/

/-- Seven days in milliseconds, the staleness window. -/
def pinnedStaleThreshold : Int := 7 * 24 * 60 * 60 * 1000

/-- Embeds cleanupStaleJobs: an entry is deleted exactly when its job id is
absent from the active snapshot and it was pinned more than the staleness
window ago; the surviving map is then persisted. -/
def cleanupStaleJobs (pinnedJobs : List (Str × Int)) (activeJobIds : List Str)
    (now : Int) : List (Str × Int) :=
  pinnedJobs.filter
    (fun p => !(decide (p.1 ∉ activeJobIds) && decide (now - p.2 > pinnedStaleThreshold)))

/-! Claim theorem for the pin cache (C9). -/

/-- C9: cleanupStaleJobs removes a pin exactly when its id is absent from the
active snapshot and the time since it was pinned exceeds the 7-day staleness
window; pins of active jobs survive regardless of age, and pins younger than
the window survive even when their job is absent; nothing is ever added. -/
theorem cleanupStaleJobs_spec (pinnedJobs : List (Str × Int)) (activeJobIds : List Str)
    (now : Int) (jobId : Str) (ts : Int) :
    ((jobId, ts) ∈ cleanupStaleJobs pinnedJobs activeJobIds now ↔
      (jobId, ts) ∈ pinnedJobs ∧
        ¬(jobId ∉ activeJobIds ∧ now - ts > pinnedStaleThreshold))
  ∧ (jobId ∈ activeJobIds → (jobId, ts) ∈ pinnedJobs →
      (jobId, ts) ∈ cleanupStaleJobs pinnedJobs activeJobIds now)
  ∧ (now - ts ≤ pinnedStaleThreshold → (jobId, ts) ∈ pinnedJobs →
      (jobId, ts) ∈ cleanupStaleJobs pinnedJobs activeJobIds now)
  ∧ (cleanupStaleJobs pinnedJobs activeJobIds now ⊆ pinnedJobs) := by
  have hmem : (jobId, ts) ∈ cleanupStaleJobs pinnedJobs activeJobIds now ↔
      (jobId, ts) ∈ pinnedJobs ∧
        ¬(jobId ∉ activeJobIds ∧ now - ts > pinnedStaleThreshold) := by
    unfold cleanupStaleJobs
    rw [List.mem_filter]
    simp only [Bool.not_eq_true', Bool.and_eq_false_iff, decide_eq_false_iff_not,
      Decidable.not_not, not_lt, and_congr_right_iff, not_and]
    intro _
    constructor
    · intro hor hna
      rcases hor with hin | hle
      · exact absurd hin hna
      · omega
    · intro himp
      by_cases hin : jobId ∈ activeJobIds
      · exact Or.inl hin
      · exact Or.inr (by have := himp hin; omega)
  refine ⟨hmem, ?_, ?_, ?_⟩
  · intro hact hp
    exact hmem.mpr ⟨hp, fun hc => hc.1 hact⟩
  · intro hyoung hp
    exact hmem.mpr ⟨hp, fun hc => absurd hc.2 (by omega)⟩
  · intro x hx
    exact (List.mem_filter.mp hx).1

theorem cleanupStaleJobs_spec_witness :
    (("7".data, (0 : Int)) ∈
        cleanupStaleJobs [("7".data, 0)] ["7".data] (700000000 : Int)) ∧
    (("8".data, (0 : Int)) ∉
        cleanupStaleJobs [("8".data, 0)] [] (700000000 : Int)) :=
  ⟨(cleanupStaleJobs_spec [("7".data, 0)] ["7".data] 700000000 "7".data 0).2.1
      (by decide) (by decide),
    by decide⟩

/-! Array Selector Parser and Validator (specification section 4.6). The
advanced job-array cancellation is declared in the README and CHANGELOG but
its implementation is not present under the source tree - the shipped
cancelJobCommand only offers entire-array or single-index cancellation - so
this component is modelled from the specification text. -/

/-- Modelled from the spec: the four selector grammar forms of section 4.6
(EntireArray, IndexRange, SteppedRange, ExplicitList), for the Array Selector
Parser and Validator whose implementation is missing from the source tree. -/
inductive ArraySel where
  | entireArray : ArraySel
  | indexRange (low high : Nat) : ArraySel
  | steppedRange (low high step : Nat) : ArraySel
  | explicitList (indices : List Nat) : ArraySel
deriving DecidableEq

inductive SelReject where
  | malformed : SelReject
  | outOfBounds (index : Nat) : SelReject
  | duplicateIndex (index : Nat) : SelReject
deriving DecidableEq

inductive SelOutcome where
  | rejected (reason : SelReject) : SelOutcome
  | ok (ids : List Str) (needsConfirmation : Bool) : SelOutcome
deriving DecidableEq

/-- A nonempty all-digit token. -/
def digitsOnly (t : Str) : Bool := !t.isEmpty && t.all Char.isDigit

/-- Modelled from the spec: the selector grammar, tried in the order given in
section 4.6: the empty sentinel, then low-high, then low-high:step, then a
comma-separated list of integers; anything else fails to parse. -/
def parseArraySelector (raw : Str) : Option ArraySel :=
  if raw = [] then some .entireArray
  else
    match splitOnChar '-' raw with
    | [l, r] =>
      if digitsOnly l then
        match splitOnChar ':' r with
        | [h] =>
          if digitsOnly h then some (.indexRange (natOfDigits l) (natOfDigits h)) else none
        | [h, st] =>
          if digitsOnly h && digitsOnly st then
            some (.steppedRange (natOfDigits l) (natOfDigits h) (natOfDigits st))
          else none
        | _ => none
      else none
    | [_] =>
      let items := splitOnChar ',' raw
      if items.all digitsOnly then some (.explicitList (items.map natOfDigits)) else none
    | _ => none

/-- The fully qualified task identifier baseId_index. -/
def qualifiedId (base : Str) (i : Nat) : Str := base ++ '_' :: natChars i

/-- The first index that occurs more than once, if any. -/
def firstDuplicate : List Nat → Option Nat
  | [] => none
  | i :: rest => if i ∈ rest then some i else firstDuplicate rest

/-- Modelled from the spec: uniform validation of the resolved indices
(section 4.6): the first index outside the declared bounds rejects the whole
request reporting that index; an explicit list additionally rejects on a
duplicated index; otherwise the ordered list of qualified identifiers is
returned, flagged for extra confirmation when it has more than 100 entries. -/
def checkIndices (base : Str) (lo hi : Nat) (idxs : List Nat) (isExplicit : Bool) :
    SelOutcome :=
  match idxs.find? (fun i => !(decide (lo ≤ i) && decide (i ≤ hi))) with
  | some i => .rejected (.outOfBounds i)
  | none =>
    if isExplicit then
      match firstDuplicate idxs with
      | some i => .rejected (.duplicateIndex i)
      | none => .ok (idxs.map (qualifiedId base)) (decide (idxs.length > 100))
    else .ok (idxs.map (qualifiedId base)) (decide (idxs.length > 100))

/-- Modelled from the spec: the Array Selector Parser and Validator of
section 4.6: parse the raw selector, resolve it to its index list (the range
endpoints inclusive; the stepped range low, low+step, ... while at most high;
the explicit list in the order given), validate against the declared bounds,
and return the base identifier alone for the entire array. -/
def validateArraySelector (base raw : Str) (lo hi : Nat) : SelOutcome :=
  match parseArraySelector raw with
  | none => .rejected .malformed
  | some .entireArray => .ok [base] (decide ((1 : Nat) > 100))
  | some (.indexRange low high) =>
    if low ≤ high then
      checkIndices base lo hi ((List.range (high + 1 - low)).map (fun k => low + k)) false
    else .rejected .malformed
  | some (.steppedRange low high st) =>
    if 1 ≤ st ∧ low ≤ high then
      checkIndices base lo hi
        ((List.range ((high - low) / st + 1)).map (fun k => low + k * st)) false
    else .rejected .malformed
  | some (.explicitList idxs) => checkIndices base lo hi idxs true

theorem natOfDigits_append_digit (a : Str) (c : Char) :
    natOfDigits (a ++ [c]) = 10 * natOfDigits a + (c.toNat - 48) := by
  simp [natOfDigits, List.foldl_append]

theorem digitChar_toNat (r : Nat) (h : r < 10) : (Nat.digitChar r).toNat = 48 + r := by
  interval_cases r <;> decide

theorem natOfDigits_natCharsAux (fuel : Nat) :
    ∀ n : Nat, n < fuel → natOfDigits (natCharsAux fuel n) = n := by
  induction fuel with
  | zero => intro n hn; omega
  | succ fuel ih =>
    intro n hn
    by_cases h10 : n < 10
    · simp [natCharsAux, h10, natOfDigits, digitChar_toNat n h10]
    · have hmod := Nat.mod_lt n (show 0 < 10 from by norm_num)
      have hdm := Nat.div_add_mod n 10
      have hlt : n / 10 < fuel := by omega
      simp only [natCharsAux, if_neg h10, natOfDigits_append_digit,
        ih (n / 10) hlt, digitChar_toNat (n % 10) hmod]
      omega

theorem natChars_injective : Function.Injective natChars := by
  intro a b h
  have ha : natOfDigits (natChars a) = a := natOfDigits_natCharsAux (a + 1) a (by omega)
  have hb : natOfDigits (natChars b) = b := natOfDigits_natCharsAux (b + 1) b (by omega)
  rw [← ha, ← hb, h]

theorem qualifiedId_injective (base : Str) : Function.Injective (qualifiedId base) := by
  intro a b h
  unfold qualifiedId at h
  have h2 := List.append_cancel_left h
  exact natChars_injective (List.cons_injective h2)

theorem firstDuplicate_eq_none (l : List Nat) (h : firstDuplicate l = none) : l.Nodup := by
  induction l with
  | nil => exact List.nodup_nil
  | cons i rest ih =>
    unfold firstDuplicate at h
    by_cases hmem : i ∈ rest
    · rw [if_pos hmem] at h
      exact absurd h (by simp)
    · rw [if_neg hmem] at h
      exact List.nodup_cons.mpr ⟨hmem, ih h⟩

theorem checkIndices_ok (base : Str) (lo hi : Nat) (idxs : List Nat) (isExplicit : Bool)
    (ids : List Str) (flag : Bool)
    (h : checkIndices base lo hi idxs isExplicit = .ok ids flag) :
    ids = idxs.map (qualifiedId base) ∧ flag = decide (idxs.length > 100) ∧
    (∀ i ∈ idxs, lo ≤ i ∧ i ≤ hi) ∧ (isExplicit = true → idxs.Nodup) := by
  unfold checkIndices at h
  rcases hf : idxs.find? (fun i => !(decide (lo ≤ i) && decide (i ≤ hi))) with _ | i <;>
    rw [hf] at h
  · have hbounds : ∀ i ∈ idxs, lo ≤ i ∧ i ≤ hi := by
      intro i hi2
      have := List.find?_eq_none.mp hf i hi2
      simp only [Bool.not_eq_true', Bool.and_eq_false_iff, decide_eq_false_iff_not,
        Bool.not_eq_false, Bool.and_eq_true, decide_eq_true_eq] at this
      tauto
    by_cases hexp : isExplicit = true
    · rw [if_pos hexp] at h
      rcases hd : firstDuplicate idxs with _ | i <;> rw [hd] at h
      · simp only [SelOutcome.ok.injEq] at h
        exact ⟨h.1.symm, h.2.symm, hbounds, fun _ => firstDuplicate_eq_none idxs hd⟩
      · exact absurd h (by simp)
    · rw [if_neg hexp] at h
      simp only [SelOutcome.ok.injEq] at h
      exact ⟨h.1.symm, h.2.symm, hbounds, fun habs => absurd habs hexp⟩
  · exact absurd h (by simp)

theorem checkIndices_oob (base : Str) (lo hi : Nat) (idxs : List Nat) (isExplicit : Bool)
    (i : Nat) (h : checkIndices base lo hi idxs isExplicit = .rejected (.outOfBounds i)) :
    i ∈ idxs ∧ ¬(lo ≤ i ∧ i ≤ hi) := by
  unfold checkIndices at h
  rcases hf : idxs.find? (fun j => !(decide (lo ≤ j) && decide (j ≤ hi))) with _ | j <;>
    rw [hf] at h
  · by_cases hexp : isExplicit = true
    · rw [if_pos hexp] at h
      rcases hd : firstDuplicate idxs with _ | j <;> rw [hd] at h <;> exact absurd h (by simp)
    · rw [if_neg hexp] at h
      exact absurd h (by simp)
  · simp only [SelOutcome.rejected.injEq, SelReject.outOfBounds.injEq] at h
    subst h
    have hmem := List.mem_of_find?_eq_some hf
    have hpred := List.find?_some hf
    simp only [Bool.not_eq_true', Bool.and_eq_false_iff, decide_eq_false_iff_not] at hpred
    refine ⟨hmem, ?_⟩
    rintro ⟨hlo, hhi⟩
    rcases hpred with hp | hp
    · exact hp hlo
    · exact hp hhi
theorem validate_ok_of_checkIndices (base : Str) (lo hi : Nat) (idxs : List Nat)
    (isExplicit : Bool) (ids : List Str) (flag : Bool)
    (hnd : isExplicit = false → idxs.Nodup)
    (h : checkIndices base lo hi idxs isExplicit = .ok ids flag) :
    ids.Nodup ∧ flag = decide (ids.length > 100) ∧
      (∀ id ∈ ids, ∃ i, lo ≤ i ∧ i ≤ hi ∧ id = qualifiedId base i) := by
  obtain ⟨hids, hflag, hbounds, hnd2⟩ := checkIndices_ok base lo hi idxs isExplicit ids flag h
  have hndup : idxs.Nodup := by
    cases isExplicit
    · exact hnd rfl
    · exact hnd2 rfl
  subst hids
  refine ⟨List.Nodup.map (qualifiedId_injective base) hndup, ?_, ?_⟩
  · rw [hflag, List.length_map]
  · intro id hid
    obtain ⟨i, hi2, rfl⟩ := List.mem_map.mp hid
    exact ⟨i, (hbounds i hi2).1, (hbounds i hi2).2, rfl⟩

theorem validate_parse_none (base raw : Str) (lo hi : Nat)
    (hp : parseArraySelector raw = none) :
    validateArraySelector base raw lo hi = .rejected .malformed := by
  unfold validateArraySelector
  rw [hp]

theorem validate_parse_entire (base raw : Str) (lo hi : Nat)
    (hp : parseArraySelector raw = some .entireArray) :
    validateArraySelector base raw lo hi = .ok [base] (decide ((1 : Nat) > 100)) := by
  unfold validateArraySelector
  rw [hp]

theorem validate_parse_range (base raw : Str) (lo hi low high : Nat)
    (hp : parseArraySelector raw = some (.indexRange low high)) :
    validateArraySelector base raw lo hi =
      (if low ≤ high then
        checkIndices base lo hi ((List.range (high + 1 - low)).map (fun k => low + k)) false
      else .rejected .malformed) := by
  unfold validateArraySelector
  rw [hp]

theorem validate_parse_stepped (base raw : Str) (lo hi low high st : Nat)
    (hp : parseArraySelector raw = some (.steppedRange low high st)) :
    validateArraySelector base raw lo hi =
      (if 1 ≤ st ∧ low ≤ high then
        checkIndices base lo hi
          ((List.range ((high - low) / st + 1)).map (fun k => low + k * st)) false
      else .rejected .malformed) := by
  unfold validateArraySelector
  rw [hp]

theorem validate_parse_explicit (base raw : Str) (lo hi : Nat) (idxs : List Nat)
    (hp : parseArraySelector raw = some (.explicitList idxs)) :
    validateArraySelector base raw lo hi = checkIndices base lo hi idxs true := by
  unfold validateArraySelector
  rw [hp]

/-! Claim theorem for the Array Selector Parser and Validator (C1). -/

/-- C1 (modelled from the spec): on success the validator returns an ordered,
deduplicated list of fully qualified identifiers, each resolving to an index
within the declared bounds (or the bare base id for the entire array), flagged
for extra confirmation exactly when more than 100 identifiers were resolved;
an out-of-bounds rejection reports an index that was resolved and violates
the bounds; and the concrete behaviors of the specification hold: 0-10
against bounds 0..20 resolves to the eleven identifiers for 0..10, 0-20:2 to
the eleven even indices, 1,3,5,7 to exactly those four in order, 5,5,6 is
rejected for the duplicate 5, 0-50 against bounds 0..20 is rejected with an
out-of-bounds index, 101 resolved identifiers are flagged and 100 are not. -/
theorem validateArraySelector_spec (base raw : Str) (lo hi : Nat) :
    (∀ ids flag, validateArraySelector base raw lo hi = .ok ids flag →
      ids.Nodup ∧ flag = decide (ids.length > 100) ∧
      (ids = [base] ∨ ∀ id ∈ ids, ∃ i, lo ≤ i ∧ i ≤ hi ∧ id = qualifiedId base i))
  ∧ (∀ i, validateArraySelector base raw lo hi = .rejected (.outOfBounds i) →
      ¬(lo ≤ i ∧ i ≤ hi))
  ∧ validateArraySelector "77".data "0-10".data 0 20
      = .ok ((List.range 11).map (fun k => qualifiedId "77".data k)) false
  ∧ validateArraySelector "77".data "0-20:2".data 0 20
      = .ok ((List.range 11).map (fun k => qualifiedId "77".data (2 * k))) false
  ∧ validateArraySelector "77".data "1,3,5,7".data 0 20
      = .ok [qualifiedId "77".data 1, qualifiedId "77".data 3, qualifiedId "77".data 5,
          qualifiedId "77".data 7] false
  ∧ validateArraySelector "77".data "5,5,6".data 0 20 = .rejected (.duplicateIndex 5)
  ∧ validateArraySelector "77".data "0-50".data 0 20 = .rejected (.outOfBounds 21)
  ∧ validateArraySelector "77".data "".data 0 20 = .ok ["77".data] false
  ∧ validateArraySelector "9".data "0-100".data 0 200
      = .ok ((List.range 101).map (fun k => qualifiedId "9".data k)) true
  ∧ validateArraySelector "9".data "0-99".data 0 200
      = .ok ((List.range 100).map (fun k => qualifiedId "9".data k)) false := by
  refine ⟨?_, ?_, by decide, by decide, by decide, by decide, by decide, by decide,
    by decide, by decide⟩
  · intro ids flag h
    rcases hp : parseArraySelector raw with _ | sel
    · rw [validate_parse_none base raw lo hi hp] at h
      exact absurd h (by simp)
    · cases sel with
      | entireArray =>
        rw [validate_parse_entire base raw lo hi hp] at h
        simp only [SelOutcome.ok.injEq] at h
        rw [← h.1, ← h.2]
        exact ⟨by simp, by simp, Or.inl rfl⟩
      | indexRange low high =>
        rw [validate_parse_range base raw lo hi low high hp] at h
        by_cases hlh : low ≤ high
        · rw [if_pos hlh] at h
          have hndr : ((List.range (high + 1 - low)).map (fun k => low + k)).Nodup :=
            List.Nodup.map (fun a b hab => by omega) (List.nodup_range _)
          obtain ⟨h1, h2, h3⟩ :=
            validate_ok_of_checkIndices base lo hi _ false ids flag (fun _ => hndr) h
          exact ⟨h1, h2, Or.inr h3⟩
        · rw [if_neg hlh] at h
          exact absurd h (by simp)
      | steppedRange low high st =>
        rw [validate_parse_stepped base raw lo hi low high st hp] at h
        by_cases hcond : 1 ≤ st ∧ low ≤ high
        · rw [if_pos hcond] at h
          have hndr : ((List.range ((high - low) / st + 1)).map
              (fun k => low + k * st)).Nodup := by
            refine List.Nodup.map (fun a b hab => ?_) (List.nodup_range _)
            have hab2 : a * st = b * st := by omega
            exact Nat.eq_of_mul_eq_mul_right (by omega) hab2
          obtain ⟨h1, h2, h3⟩ :=
            validate_ok_of_checkIndices base lo hi _ false ids flag (fun _ => hndr) h
          exact ⟨h1, h2, Or.inr h3⟩
        · rw [if_neg hcond] at h
          exact absurd h (by simp)
      | explicitList idxs =>
        rw [validate_parse_explicit base raw lo hi idxs hp] at h
        obtain ⟨h1, h2, h3⟩ :=
          validate_ok_of_checkIndices base lo hi idxs true ids flag
            (fun habs => by simp at habs) h
        exact ⟨h1, h2, Or.inr h3⟩
  · intro i h
    rcases hp : parseArraySelector raw with _ | sel
    · rw [validate_parse_none base raw lo hi hp] at h
      simp only [SelOutcome.rejected.injEq] at h
      exact absurd h (by simp)
    · cases sel with
      | entireArray =>
        rw [validate_parse_entire base raw lo hi hp] at h
        exact absurd h (by simp)
      | indexRange low high =>
        rw [validate_parse_range base raw lo hi low high hp] at h
        by_cases hlh : low ≤ high
        · rw [if_pos hlh] at h
          exact (checkIndices_oob base lo hi _ false i h).2
        · rw [if_neg hlh] at h
          simp only [SelOutcome.rejected.injEq] at h
          exact absurd h (by simp)
      | steppedRange low high st =>
        rw [validate_parse_stepped base raw lo hi low high st hp] at h
        by_cases hcond : 1 ≤ st ∧ low ≤ high
        · rw [if_pos hcond] at h
          exact (checkIndices_oob base lo hi _ false i h).2
        · rw [if_neg hcond] at h
          simp only [SelOutcome.rejected.injEq] at h
          exact absurd h (by simp)
      | explicitList idxs =>
        rw [validate_parse_explicit base raw lo hi idxs hp] at h
        exact (checkIndices_oob base lo hi idxs true i h).2

theorem validateArraySelector_spec_witness :
    validateArraySelector "9".data "1,3".data 0 5
      = .ok [qualifiedId "9".data 1, qualifiedId "9".data 3] false ∧
    ([qualifiedId "9".data 1, qualifiedId "9".data 3].Nodup ∧
      false = decide (([qualifiedId "9".data 1, qualifiedId "9".data 3].length) > 100) ∧
      ([qualifiedId "9".data 1, qualifiedId "9".data 3] = ["9".data] ∨
        ∀ id ∈ [qualifiedId "9".data 1, qualifiedId "9".data 3],
          ∃ i, 0 ≤ i ∧ i ≤ 5 ∧ id = qualifiedId "9".data i)) :=
  ⟨by decide,
    (validateArraySelector_spec "9".data "1,3".data 0 5).1
      [qualifiedId "9".data 1, qualifiedId "9".data 3] false (by decide)⟩

end SlurmSpec
